import Mathlib

/-!
Verification development for the portfolio automation pipeline.

The definitions below are a shallow embedding of the JavaScript sources:
  - automation/lib/template-generator.js (generateFilename and its slug step)
  - automation/lib/github-fetcher.js (parseGitHubUrl, fetchRepoData,
    parseReadme, detectTechStack)
  - automation/lib/browse-updater.js (updateBrowseHtml, getNextProjectNumber)

Strings are modelled as lists of characters; the JavaScript regular
expressions are modelled by explicit scanning functions that follow the
backtracking behaviour of the concrete patterns used in the source.
Fallible operations return Except values; fields that may be null are
Option values.
-/

deriving instance DecidableEq for Except

namespace Portfolio

/-! ## Character class helpers (ASCII model of the JS character classes) -/

/-- Whitespace as matched by the JS regex class backslash-s (ASCII part). -/
def isWsChar (c : Char) : Bool :=
  c = ' ' ∨ c = '\t' ∨ c = '\n' ∨ c = '\r' ∨ c = '\x0b' ∨ c = '\x0c'

/-- Lower-case letters and digits: the class kept by the slug step. -/
def isLowerAlnum (c : Char) : Bool :=
  ('a' ≤ c ∧ c ≤ 'z') ∨ ('0' ≤ c ∧ c ≤ '9')

/-- Word characters as matched by the JS regex class backslash-w. -/
def isWordChar (c : Char) : Bool :=
  c.isAlpha ∨ c.isDigit ∨ c = '_'

/-- The backquote character, used for markdown code fences. -/
def btChar : Char := Char.ofNat 96

/-- Three backquotes: a markdown code fence marker. -/
def fenceLit : List Char := [btChar, btChar, btChar]

/-- String.trim of the source, on character lists (both ends). -/
def trimChars (s : List Char) : List Char :=
  ((s.dropWhile isWsChar).reverse.dropWhile isWsChar).reverse

/-! ## Slugification and filename generation (template-generator.js, generateFilename)

The source computes
  title.toLowerCase().replace(slash [^a-z0-9]+ slash g, hyphen)
       .replace(anchored hyphen alternation, empty)
i.e. lower-case, collapse each maximal run of non-alphanumeric characters
to a single hyphen, then delete one leading and one trailing hyphen. -/

/-- Collapse each maximal run of non-[a-z0-9] characters to one hyphen.
The boolean flag records whether the previous character was part of such
a run (so the run produces a single hyphen). -/
def collapseAux (prevHy : Bool) : List Char → List Char
  | [] => []
  | c :: rest =>
    if isLowerAlnum c then c :: collapseAux false rest
    else if prevHy then collapseAux true rest
    else '-' :: collapseAux true rest

/-- The global replace of non-alphanumeric runs by single hyphens. -/
def collapseRuns (s : List Char) : List Char := collapseAux false s

/-- The final replace: remove one leading and one trailing hyphen, exactly
as the anchored global regex of the source does. -/
def stripLead (s : List Char) : List Char :=
  if s.head? = some '-' then s.tail else s

def stripEdgeHyphens (s : List Char) : List Char :=
  if (stripLead s).getLast? = some '-' then (stripLead s).dropLast else stripLead s

/-- The slug step of generateFilename. -/
def slugifyChars (t : List Char) : List Char :=
  stripEdgeHyphens (collapseRuns (t.map Char.toLower))

/-- First match of the digit-run regex: the first maximal run of digits. -/
def firstNum : List Char → Option (List Char)
  | [] => none
  | c :: t => if c.isDigit then some (c :: t.takeWhile Char.isDigit) else firstNum t

/-- Digits of a natural number, as the JS template literal renders them. -/
def natDigits (n : Nat) : List Char := (Nat.repr n).data

/-- Literal pieces of the generated filename. -/
def dayLit : List Char := ("day-").data

/-- A single hyphen, the separator of the generated filename. -/
def hyLit : List Char := ("-").data

/-- The filename suffix. -/
def htmlLit : List Char := (".html").data

/-- generateFilename of template-generator.js.  The number is the first
digit run of the project-number label; when the label has none the
current timestamp (passed here as the argument now) is used. -/
def generateFilename (title projNum : List Char) (now : Nat) : List Char :=
  let num := match firstNum projNum with
    | some ds => ds
    | none => natDigits now
  dayLit ++ num ++ hyLit ++ slugifyChars title ++ htmlLit

/-! ## parseGitHubUrl (github-fetcher.js)

Two patterns are tried in order: github.com followed by a slash, and
github.com followed by a colon, each then capturing two non-empty runs of
non-slash characters separated by a slash.  The first position (leftmost)
at which a pattern matches wins; a trailing .git is stripped from repo. -/

/-- The literal host part of both URL patterns. -/
def ghLit : List Char := ("github.com").data

/-- Attempt the owner/repo pattern with the given separator at the head of
the string: the host literal, the separator, then group one (maximal
non-empty run of non-slash characters), a slash, and group two. -/
def tryPatAt (sep : Char) (s : List Char) : Option (List Char × List Char) :=
  if (ghLit ++ [sep]).isPrefixOf s then
    let r := s.drop (ghLit.length + 1)
    let o := r.takeWhile (fun c => c ≠ '/')
    if o.isEmpty then none else
    match r.drop o.length with
    | '/' :: r2 =>
        let p := r2.takeWhile (fun c => c ≠ '/')
        if p.isEmpty then none else some (o, p)
    | _ => none
  else none

/-- Leftmost match of the pattern: try each start position left to right. -/
def scanPat (sep : Char) : List Char → Option (List Char × List Char)
  | [] => none
  | c :: t =>
    match tryPatAt sep (c :: t) with
    | some r => some r
    | none => scanPat sep t

/-- The .git suffix stripped from the repo group. -/
def gitSuf : List Char := (".git").data

/-- Strip a trailing .git, as the anchored replace of the source does. -/
def stripGitSuf (r : List Char) : List Char :=
  if gitSuf.isSuffixOf r then r.take (r.length - 4) else r

/-- The error message prefix of the invalid-reference error. -/
def invalidLit : List Char := ("Invalid GitHub URL: ").data

/-- parseGitHubUrl of github-fetcher.js. -/
def parseGitHubUrl (url : List Char) : Except (List Char) (List Char × List Char) :=
  match scanPat '/' url with
  | some (o, p) => Except.ok (o, stripGitSuf p)
  | none =>
    match scanPat ':' url with
    | some (o, p) => Except.ok (o, stripGitSuf p)
    | none => Except.error (invalidLit ++ url)

/-! ## fetchRepoData (github-fetcher.js)

The network calls are modelled as Except-valued inputs.  In the source the
primary repos.get call and the listLanguages call are awaited without a
try/catch, so their failures propagate; the README, package.json and
requirements.txt lookups are wrapped in try/catch and yield null on
failure.  The JSON.parse of package.json happens inside its try block, so
a parse failure is part of the pkgGet error case. -/

/-- Errors of the GitHub API calls. -/
inductive ApiError where
  | notFound
  | unreachable
deriving DecidableEq

/-- The fields of the repos.get response that the source reads. -/
structure RepoInfo where
  name : String
  description : Option String
  html_url : String
  homepage : Option String
  topics : Option (List String)
  created_at : String
  updated_at : String
  stargazers_count : Nat
  forks_count : Nat
deriving DecidableEq

/-- The parsed package.json manifest: the source only reads the keys of
its dependencies object. -/
structure PackageJson where
  dependencies : Option (List String)
deriving DecidableEq

/-- The record returned by fetchRepoData.  The languages object is
modelled by its ordered key list. -/
structure RepoData where
  name : String
  description : String
  url : String
  homepage : Option String
  topics : List String
  languages : List String
  readme : Option String
  packageJson : Option PackageJson
  requirements : Option String
  createdAt : String
  updatedAt : String
  stars : Nat
  forks : Nat
deriving DecidableEq

/-- fetchRepoData of github-fetcher.js, over the results of the five API
calls it performs. -/
def fetchRepoData (repoGet : Except ApiError RepoInfo)
    (readmeGet : Except ApiError String)
    (pkgGet : Except ApiError PackageJson)
    (reqGet : Except ApiError String)
    (langGet : Except ApiError (List String)) : Except ApiError RepoData := do
  let info ← repoGet
  let readme : Option String := readmeGet.toOption
  let packageJson : Option PackageJson := pkgGet.toOption
  let requirements : Option String := reqGet.toOption
  let languages ← langGet
  pure { name := info.name
         description := info.description.getD ""
         url := info.html_url
         homepage := info.homepage
         topics := info.topics.getD []
         languages := languages
         readme := readme
         packageJson := packageJson
         requirements := requirements
         createdAt := info.created_at
         updatedAt := info.updated_at
         stars := info.stargazers_count
         forks := info.forks_count }

/-! ## detectTechStack (github-fetcher.js)

The function destructures languages, packageJson, requirements, readme and
topics from its argument and treats each as possibly absent, so its input
is modelled by a structure of Option fields.  Badge names are lists of
characters because the deduplication compares lower-cased names. -/

/-- A tech badge of the curated lookup table. -/
structure Badge where
  abbr : String
  name : List Char
  description : String
  color : String
deriving DecidableEq

/-- The input record destructured by detectTechStack. -/
structure TechData where
  languages : Option (List String)
  topics : Option (List String)
  packageJson : Option PackageJson
  requirements : Option String
  readme : Option String
deriving DecidableEq

/-- The key-badge pairs of the curated lookup table (the techMappings
object literal of the source, in its key order). -/
def mappingPairs : List (String × Badge) :=
  [("JavaScript", { abbr := "JS", name := ("JavaScript").data, description := "Core language", color := "linear-gradient(135deg, #f7df1e 0%, #c9b200 100%)" }),
   ("TypeScript", { abbr := "TS", name := ("TypeScript").data, description := "Type-safe JavaScript", color := "linear-gradient(135deg, #3178c6 0%, #235a97 100%)" }),
   ("Python", { abbr := "Py", name := ("Python").data, description := "Core language", color := "linear-gradient(135deg, #3776ab 0%, #ffd43b 100%)" }),
   ("Go", { abbr := "Go", name := ("Golang").data, description := "Systems programming", color := "linear-gradient(135deg, #00add8 0%, #007d9c 100%)" }),
   ("Rust", { abbr := "Rs", name := ("Rust").data, description := "Systems programming", color := "linear-gradient(135deg, #dea584 0%, #b7410e 100%)" }),
   ("HTML", { abbr := "HTML", name := ("HTML5").data, description := "Markup language", color := "linear-gradient(135deg, #e34c26 0%, #f06529 100%)" }),
   ("CSS", { abbr := "CSS", name := ("CSS3").data, description := "Styling", color := "linear-gradient(135deg, #264de4 0%, #2965f1 100%)" }),
   ("react", { abbr := "React", name := ("React").data, description := "UI library", color := "linear-gradient(135deg, #61dafb 0%, #21a1c4 100%)" }),
   ("nextjs", { abbr := "Next", name := ("Next.js").data, description := "React framework", color := "linear-gradient(135deg, #000 0%, #333 100%)" }),
   ("nodejs", { abbr := "Node", name := ("Node.js").data, description := "Runtime", color := "linear-gradient(135deg, #68a063 0%, #3c873a 100%)" }),
   ("docker", { abbr := "Docker", name := ("Docker").data, description := "Containerization", color := "linear-gradient(135deg, #2496ed 0%, #1976d2 100%)" }),
   ("aws", { abbr := "AWS", name := ("AWS").data, description := "Cloud platform", color := "linear-gradient(135deg, #ff9900 0%, #cc7a00 100%)" }),
   ("tensorflow", { abbr := "TF", name := ("TensorFlow").data, description := "ML framework", color := "linear-gradient(135deg, #ff6f00 0%, #ff9800 100%)" }),
   ("pytorch", { abbr := "PT", name := ("PyTorch").data, description := "ML framework", color := "linear-gradient(135deg, #ee4c2c 0%, #ff6f61 100%)" }),
   ("openai", { abbr := "GPT", name := ("OpenAI").data, description := "AI/LLM", color := "linear-gradient(135deg, #412991 0%, #10a37f 100%)" }),
   ("langchain", { abbr := "LC", name := ("LangChain").data, description := "LLM framework", color := "linear-gradient(135deg, #1c3c3c 0%, #2d5a5a 100%)" })]

/-- The curated mapping from language names, topic slugs and dependency
names to badges: key lookup in the object literal. -/
def techMappings (k : String) : Option Badge :=
  (mappingPairs.find? (fun p => p.1 == k)).map (fun p => p.2)

/-- Lower-case a character list, as toLowerCase does on ASCII names. -/
def lowerChars (s : List Char) : List Char := s.map Char.toLower

/-- The deduplication test of the source: some entry of the stack has the
same display name, compared lower-cased. -/
def hasName (stack : List Badge) (b : Badge) : Bool :=
  stack.any (fun t => lowerChars t.name = lowerChars b.name)

/-- Stage one: the first three language keys are looked up and pushed
without any deduplication check (the source has none in this loop). -/
def addLangs (stack : List Badge) : List String → List Badge
  | [] => stack
  | l :: ls =>
    match techMappings l with
    | some b => addLangs (stack ++ [b]) ls
    | none => addLangs stack ls

/-- Stage two: topics are lower-cased, looked up, and pushed unless an
entry with the same display name is already present. -/
def addTopics (stack : List Badge) : List String → List Badge
  | [] => stack
  | t :: ts =>
    match techMappings (String.map Char.toLower t) with
    | some b =>
      if hasName stack b then addTopics stack ts
      else addTopics (stack ++ [b]) ts
    | none => addTopics stack ts

/-- The ordered dependency-name table of the source (depMappings). -/
def depMapList : List (String × String) :=
  [("react", "react"), ("next", "nextjs"), ("@tensorflow/tfjs", "tensorflow"),
   ("openai", "openai"), ("langchain", "langchain")]

/-- Stage three: for each table entry whose dependency name occurs among
the manifest dependency keys, push the badge unless its name is present. -/
def addDeps (deps : List String) (stack : List Badge) : List (String × String) → List Badge
  | [] => stack
  | (dep, key) :: rest =>
    match techMappings key with
    | some b =>
      if deps.contains dep ∧ ¬ hasName stack b then addDeps deps (stack ++ [b]) rest
      else addDeps deps stack rest
    | none => addDeps deps stack rest

/-- The ordered requirements-scan table of the source (pyMappings). -/
def pyMapList : List (String × String) :=
  [("tensorflow", "tensorflow"), ("torch", "pytorch"),
   ("openai", "openai"), ("langchain", "langchain")]

/-- Occurrence of pat as a contiguous substring (the JS includes check). -/
def containsSeq (pat : List Char) : List Char → Bool
  | [] => pat.isEmpty
  | c :: t => pat.isPrefixOf (c :: t) || containsSeq pat t

/-- Stage four: for each table entry whose package name occurs as a
substring of the lower-cased requirements text, push the badge unless its
name is present. -/
def addReqs (reqLower : List Char) (stack : List Badge) : List (String × String) → List Badge
  | [] => stack
  | (pkg, key) :: rest =>
    match techMappings key with
    | some b =>
      if containsSeq (pkg.data) reqLower ∧ ¬ hasName stack b then addReqs reqLower (stack ++ [b]) rest
      else addReqs reqLower stack rest
    | none => addReqs reqLower stack rest

/-- The language stage of detectTechStack: applied when languages is
present, skipped when null. -/
def stageLangs (o : Option (List String)) : List Badge :=
  match o with
  | some ls => addLangs [] (ls.take 3)
  | none => []

/-- The topics stage of detectTechStack. -/
def stageTopics (o : Option (List String)) (stack : List Badge) : List Badge :=
  match o with
  | some ts => addTopics stack ts
  | none => stack

/-- The dependency stage of detectTechStack (optional chaining on the
manifest and its dependencies object). -/
def stagePkg (o : Option PackageJson) (stack : List Badge) : List Badge :=
  match o with
  | some pj =>
    match pj.dependencies with
    | some deps => addDeps deps stack depMapList
    | none => stack
  | none => stack

/-- The requirements stage of detectTechStack. -/
def stageReqs (o : Option String) (stack : List Badge) : List Badge :=
  match o with
  | some req => addReqs (lowerChars req.data) stack pyMapList
  | none => stack

/-- detectTechStack of github-fetcher.js: the four stages in source
order, result capped at 4 entries. -/
def detectTechStack (rd : TechData) : List Badge :=
  (stageReqs rd.requirements
    (stagePkg rd.packageJson
      (stageTopics rd.topics
        (stageLangs rd.languages)))).take 4

/-! ## parseReadme (github-fetcher.js)

The heuristic extraction is regex based; each concrete pattern of the
source is modelled by a deterministic scanner that mirrors the greedy /
backtracking behaviour of that pattern.

Description: the README is split on runs of two or more newlines.  For
each paragraph, the anchored replace of one-or-more hash marks, then
one-or-more whitespace, then one-or-more non-newline characters, then an
optional newline removes a leading heading line; the remainder is
trimmed.  The first paragraph whose cleaned text is non-empty, does not
start with a hash or a code fence, and is longer than 50 characters gives
the description: its newlines become spaces and it is cut to 500
characters. -/

/-- Split on runs of two or more newlines (the paragraph split).  The
pending counter holds the number of newlines seen since the last
non-newline character: a run of length at least two separates paragraphs,
a single newline stays inside the paragraph. -/
def spAux (cur : List Char) (pending : Nat) : List Char → List (List Char)
  | [] =>
    match pending with
    | 0 => [cur.reverse]
    | 1 => [('\n' :: cur).reverse]
    | _ + 2 => [cur.reverse, []]
  | c :: rest =>
    if c = '\n' then spAux cur (pending + 1) rest
    else
      match pending with
      | 0 => spAux (c :: cur) 0 rest
      | 1 => spAux (c :: '\n' :: cur) 0 rest
      | _ + 2 => cur.reverse :: spAux [c] 0 rest

/-- The paragraph list of a README. -/
def splitParas (s : List Char) : List (List Char) := spAux [] 0 s

/-- Backtracking step of the heading regex: the whitespace part gives
back characters until the dot part can start on a non-newline character.
The candidate n is the number of characters the whitespace part keeps;
candidates are tried from n downwards and must stay positive. -/
def findDotStart (a : List Char) : Nat → Option Nat
  | 0 => none
  | Nat.succ k =>
    if a.getD (Nat.succ k) '\n' ≠ '\n' then some (Nat.succ k)
    else findDotStart a k

/-- The anchored replace removing one leading heading line: one-or-more
hashes, one-or-more whitespace characters, one-or-more non-newline
characters, and an optional trailing newline.  When the regex does not
match at the start the paragraph is returned unchanged. -/
def stripHeadingLine (p : List Char) : List Char :=
  let hashes := p.takeWhile (fun c => c = '#')
  if hashes.isEmpty then p else
  let a := p.drop hashes.length
  let w := a.takeWhile isWsChar
  if w.isEmpty then p else
  match a.drop w.length with
  | _ :: _ =>
    let rest := (a.drop w.length).dropWhile (fun c => c ≠ '\n')
    match rest with
    | '\n' :: r2 => r2
    | r => r
  | [] =>
    match findDotStart a (w.length - 1) with
    | some k =>
      let rest := (a.drop k).dropWhile (fun c => c ≠ '\n')
      match rest with
      | '\n' :: r2 => r2
      | r => r
    | none => p

/-- Flatten newlines to spaces and truncate to 500 characters. -/
def flatten500 (c : List Char) : List Char :=
  (c.map (fun ch => if ch = '\n' then ' ' else ch)).take 500

/-- The cleaned form of a paragraph tested by the description loop. -/
def cleanedPara (p : List Char) : List Char := trimChars (stripHeadingLine p)

/-- The qualification test of the description loop, on the cleaned text. -/
def qualifies (c : List Char) : Bool :=
  ¬ c.isEmpty ∧ c.head? ≠ some '#' ∧ ¬ fenceLit.isPrefixOf c ∧ 50 < c.length

/-- The description loop: first paragraph whose cleaned text qualifies. -/
def findDescriptionIn : List (List Char) → List Char
  | [] => []
  | p :: ps =>
    let c := cleanedPara p
    if qualifies c then flatten500 c else findDescriptionIn ps

/-! Section extraction.  The pattern is one or two hashes, optional
whitespace, one of the heading alternatives (case-insensitive), the rest
of the heading line, a newline, then a lazy capture that stops at the
earliest position followed by a newline and two hashes, or by a newline
at the very end of the text.  The scan restarts at the next character
when a position fails; two hashes are tried before one. -/

/-- Case-insensitive literal match: returns the rest after the literal. -/
def ciStrip (pat s : List Char) : Option (List Char) :=
  match pat with
  | [] => some s
  | pc :: pt =>
    match s with
    | [] => none
    | c :: t => if pc.toLower = c.toLower then ciStrip pt t else none

/-- First alternative that matches case-insensitively at the head. -/
def matchAltsCI (alts : List (List Char)) (s : List Char) : Option (List Char) :=
  match alts with
  | [] => none
  | a :: rest =>
    match ciStrip a s with
    | some r => some r
    | none => matchAltsCI rest s

/-- Heading part of the section regex with exactly n hashes: hashes,
greedy optional whitespace, an alternative, the rest of the line, and the
newline.  Returns the text after the newline. -/
def matchHeadingAt (alts : List (List Char)) (s : List Char) (n : Nat) : Option (List Char) :=
  if (List.replicate n '#').isPrefixOf s then
    let a := s.drop n
    let a2 := a.dropWhile isWsChar
    match matchAltsCI alts a2 with
    | some r =>
      match r.dropWhile (fun c => c ≠ '\n') with
      | '\n' :: rest => some rest
      | _ => none
    | none => none
  else none

/-- A newline followed by two hashes at the head: the first lookahead
alternative of the lazy capture. -/
def isNlHashHash (l : List Char) : Bool :=
  l.take 3 = ['\n', '#', '#']

/-- The lazy capture: the shortest prefix whose following context starts
with a newline and two hashes, or is exactly a final newline. -/
def lazyCapture : List Char → Option (List Char)
  | [] => none
  | c :: rest =>
    if isNlHashHash (c :: rest) then some []
    else if c = '\n' ∧ rest = [] then some []
    else (lazyCapture rest).map (fun cap => c :: cap)

/-- One attempt of the section regex at a fixed position: two hashes
first, then one hash, each followed by the lazy capture. -/
def tryPosn (alts : List (List Char)) (s : List Char) : Option (List Char) :=
  match matchHeadingAt alts s 2 with
  | some rest =>
    match lazyCapture rest with
    | some cap => some cap
    | none =>
      match matchHeadingAt alts s 1 with
      | some rest1 => lazyCapture rest1
      | none => none
  | none =>
    match matchHeadingAt alts s 1 with
    | some rest1 => lazyCapture rest1
    | none => none

/-- Leftmost successful attempt of the section regex. -/
def scanSection (alts : List (List Char)) : List Char → Option (List Char)
  | [] => none
  | c :: t =>
    match tryPosn alts (c :: t) with
    | some cap => some cap
    | none => scanSection alts t

/-! Bullet extraction.  The global multiline pattern is a line-start
hyphen or asterisk, one-or-more whitespace characters (which may cross
line ends, with backtracking as in the heading strip), one-or-more
non-newline characters, and the end of line.  Each full match is then
stripped of its marker and leading whitespace, and trimmed. -/

/-- One bullet attempt just after a marker character: returns the cleaned
bullet text and the remainder of the input after the full match. -/
def tryBullet (rest : List Char) : Option (List Char × List Char) :=
  let w := rest.takeWhile isWsChar
  if w.isEmpty then none else
  match rest.drop w.length with
  | [] =>
    match findDotStart w (w.length - 1) with
    | some k =>
      let dot := (w.drop k).takeWhile (fun c => c ≠ '\n')
      some ([], (w.drop k).drop dot.length)
    | none => none
  | c :: t =>
    let dot := (c :: t).takeWhile (fun c => c ≠ '\n')
    some (trimChars dot, (c :: t).drop dot.length)

/-- Bullet marker characters. -/
def isMarker (c : Char) : Bool := c = '-' ∨ c = '*'

/-- The global multiline bullet scan.  The fuel argument only certifies
termination: every step consumes at least one character, so any fuel of
at least the input length computes the scan. -/
def bulletsFuel : Nat → Bool → List Char → List (List Char)
  | 0, _, _ => []
  | _ + 1, _, [] => []
  | fuel + 1, lineStart, c :: rest =>
    if lineStart ∧ isMarker c then
      match tryBullet rest with
      | some (text, rem) => text :: bulletsFuel fuel false rem
      | none => bulletsFuel fuel (c = '\n') rest
    else bulletsFuel fuel (c = '\n') rest

/-- All bullet matches of a text, cleaned. -/
def bullets (s : List Char) : List (List Char) := bulletsFuel s.length true s

/-! Installation extraction: fenced code blocks of the matched section,
fence markers removed, trimmed, empty results dropped. -/

/-- Split at the first code fence: before and after the three marks. -/
def splitAtFence : List Char → Option (List Char × List Char)
  | [] => none
  | c :: t =>
    if fenceLit.isPrefixOf (c :: t) then some ([], (c :: t).drop 3)
    else (splitAtFence t).map (fun pr => (c :: pr.1, pr.2))

/-- The lazy fenced-block matches: from each opening fence to the
nearest closing fence.  Fuel as in the bullet scan. -/
def codeBlocksFuel : Nat → List Char → List (List Char)
  | 0, _ => []
  | fuel + 1, s =>
    match splitAtFence s with
    | none => []
    | some (_, rest1) =>
      match splitAtFence rest1 with
      | none => []
      | some (mid, rest2) => (fenceLit ++ mid ++ fenceLit) :: codeBlocksFuel fuel rest2

/-- All fenced code blocks of a text. -/
def codeBlocks (s : List Char) : List (List Char) := codeBlocksFuel s.length s

/-- The global replace removing fence markers: three marks, any word
characters, and an optional newline, everywhere in the block. -/
def removeFencesFuel : Nat → List Char → List Char
  | 0, _ => []
  | _ + 1, [] => []
  | fuel + 1, c :: t =>
    if fenceLit.isPrefixOf (c :: t) then
      let r1 := ((c :: t).drop 3).dropWhile isWordChar
      match r1 with
      | '\n' :: r2 => removeFencesFuel fuel r2
      | r => removeFencesFuel fuel r
    else c :: removeFencesFuel fuel t

/-- Fence-marker removal over a whole block. -/
def removeFences (s : List Char) : List Char := removeFencesFuel s.length s

/-- The heading alternatives of the features section. -/
def featAlts : List (List Char) :=
  [("Features").data, ("Key Features").data, ("What it does").data]

/-- The heading alternatives of the installation section. -/
def instAlts : List (List Char) :=
  [("Installation").data, ("Getting Started").data, ("Quick Start").data, ("Setup").data]

/-- The record built by parseReadme for a non-empty README. -/
structure ReadmeInfo where
  features : List (List Char)
  installation : List (List Char)
  description : List Char
deriving DecidableEq

/-- parseReadme body for a truthy README string. -/
def parseReadmeCore (r : List Char) : ReadmeInfo :=
  let description := findDescriptionIn (splitParas r)
  let features := match scanSection featAlts r with
    | some cap => (bullets cap).take 6
    | none => []
  let installation := match scanSection instAlts r with
    | some cap => ((codeBlocks cap).map (fun b => trimChars (removeFences b))).filter (fun c => ¬ c.isEmpty)
    | none => []
  { features := features, installation := installation, description := description }

/-- parseReadme of github-fetcher.js.  A null, undefined or empty README
is falsy and short-circuits to the empty object, modelled by none: the
three-field record is only produced for a non-empty README. -/
def parseReadme (readme : Option (List Char)) : Option ReadmeInfo :=
  match readme with
  | none => none
  | some r => if r.isEmpty then none else some (parseReadmeCore r)

/-! ## updateBrowseHtml (browse-updater.js)

The primary anchor pattern is three closing div tags and a closing
section tag separated by optional whitespace, then whitespace containing
a newline, then the professional-experience comment.  The fallback is
four spaces and the closing section tag, then whitespace containing a
newline, then the comment.  The first (leftmost) match of the tested
pattern is replaced by the card followed by a fixed canonical closing
block; if neither pattern matches anywhere the function throws and the
file is not written.  The whole file content is passed in and the new
content (or the error) is returned; the single write of the source is
the ok result. -/

/-- Closing div literal of the anchor pattern. -/
def divEndLit : List Char := ("</div>").data

/-- Closing section literal of the anchor pattern. -/
def sectEndLit : List Char := ("</section>").data

/-- The comment marker following the anchor. -/
def profComment : List Char := ("<!-- Professional Experience -->").data

/-- The fallback pattern prefix: four spaces then the closing section. -/
def fbLit : List Char := ("    </section>").data

/-- The fixed text inserted after the card by both replacement branches
of the source (the template literal after the card expression). -/
def replTail : List Char :=
  ("\n            </div>\n        </div>\n    </section>\n\n    <!-- Professional Experience -->").data

/-- The anchor-not-found error message. -/
def anchorErrLit : List Char := ("Could not find insertion point in browse.html").data

/-- Match a literal at the head, returning the rest. -/
def eatLit (lit s : List Char) : Option (List Char) :=
  if lit.isPrefixOf s then some (s.drop lit.length) else none

/-- Greedy optional whitespace between the closing tags. -/
def eatWs (s : List Char) : List Char := s.dropWhile isWsChar

/-- The whitespace-newline-whitespace part: after backtracking it
consumes exactly the maximal whitespace run, which must contain a
newline. -/
def eatWsNl (s : List Char) : Option (List Char) :=
  let w := s.takeWhile isWsChar
  if w.any (fun c => c = '\n') then some (s.drop w.length) else none

/-- The primary anchor pattern at a fixed position: the matched text and
the remainder. -/
def matchPrimaryAt (s : List Char) : Option (List Char × List Char) := do
  let r1 ← eatLit divEndLit s
  let r2 ← eatLit divEndLit (eatWs r1)
  let r3 ← eatLit divEndLit (eatWs r2)
  let r4 ← eatLit sectEndLit (eatWs r3)
  let r5 ← eatWsNl r4
  let r6 ← eatLit profComment r5
  pure (s.take (s.length - r6.length), r6)

/-- The fallback anchor pattern at a fixed position. -/
def matchFallbackAt (s : List Char) : Option (List Char × List Char) := do
  let r1 ← eatLit fbLit s
  let r2 ← eatWsNl r1
  let r3 ← eatLit profComment r2
  pure (s.take (s.length - r3.length), r3)

/-- Leftmost match of a positional matcher: the text before the match,
the matched text, and the text after it. -/
def scanForAux (f : List Char → Option (List Char × List Char)) (acc : List Char) :
    List Char → Option (List Char × List Char × List Char)
  | [] =>
    match f [] with
    | some (m, post) => some (acc.reverse, m, post)
    | none => none
  | c :: t =>
    match f (c :: t) with
    | some (m, post) => some (acc.reverse, m, post)
    | none => scanForAux f (c :: acc) t

/-- Leftmost match over the whole content. -/
def scanFor (f : List Char → Option (List Char × List Char)) (s : List Char) :
    Option (List Char × List Char × List Char) :=
  scanForAux f [] s

/-- updateBrowseHtml of browse-updater.js, as a pure transformation of
the gallery page content. -/
def updateBrowseHtml (card content : List Char) : Except (List Char) (List Char) :=
  match scanFor matchPrimaryAt content with
  | some (pre, _, post) => Except.ok (pre ++ card ++ replTail ++ post)
  | none =>
    match scanFor matchFallbackAt content with
    | some (pre, _, post) => Except.ok (pre ++ card ++ replTail ++ post)
    | none => Except.error anchorErrLit

/-! ## getNextProjectNumber (browse-updater.js)

Files are filtered to those starting with day- and ending with .html;
for each, the first occurrence of day- immediately followed by digits
gives a number; the result is one more than the running maximum, which
starts at zero. -/

/-- First match of the day-digits regex: scan for day- immediately
followed by at least one digit, anywhere in the name. -/
def extractDayNum : List Char → Option (List Char)
  | [] => none
  | c :: t =>
    if dayLit.isPrefixOf (c :: t) then
      match ((c :: t).drop 4).takeWhile Char.isDigit with
      | [] => extractDayNum t
      | d :: ds => some (d :: ds)
    else extractDayNum t

/-- Decimal value of a digit run, as parseInt reads it. -/
def digitsToNat (ds : List Char) : Nat :=
  ds.foldl (fun a c => 10 * a + (c.toNat - 48)) 0

/-- getNextProjectNumber of browse-updater.js, over the directory
listing. -/
def getNextProjectNumber (files : List (List Char)) : Nat :=
  let projectFiles := files.filter (fun f => dayLit.isPrefixOf f && htmlLit.isSuffixOf f)
  let maxNum := projectFiles.foldl
    (fun m f =>
      match extractDayNum f with
      | some ds => if digitsToNat ds > m then digitsToNat ds else m
      | none => m) 0
  maxNum + 1

/-- The number contributed by one file: the filter and the regex of the
source combined. -/
def dayFileNum (f : List Char) : Option Nat :=
  if dayLit.isPrefixOf f && htmlLit.isSuffixOf f then
    (extractDayNum f).map digitsToNat
  else none

/-! ## Specification-side models

These definitions follow the wording of individual specification claims,
to be compared with the code-side definitions above.  They are only used
to state refutations or refinements; the operational definitions above
are the ones translated from the source. -/

/-- Split a text into its newline-separated lines. -/
def splitLinesAux (cur : List Char) : List Char → List (List Char)
  | [] => [cur.reverse]
  | c :: rest =>
    if c = '\n' then cur.reverse :: splitLinesAux [] rest
    else splitLinesAux (c :: cur) rest

/-- The line list of a text. -/
def splitLines (s : List Char) : List (List Char) := splitLinesAux [] s

/-- Modelled from claim C3's wording: the description is the first
blank-line-delimited paragraph that is non-empty, does not start with a
heading marker or code fence, and exceeds 50 characters, with newlines
flattened to spaces and the result truncated to 500 characters. -/
def claimDescription (r : List Char) : List Char :=
  match (splitParas r).find?
      (fun p => ¬ p.isEmpty ∧ p.head? ≠ some '#' ∧ ¬ fenceLit.isPrefixOf p ∧ 50 < p.length) with
  | some p => flatten500 p
  | none => []

/-- A heading line: a line starting with a hash mark. -/
def isHeadingLine (l : List Char) : Bool := l.head? = some '#'

/-- A line whose heading text matches one of the features alternatives,
case-insensitively, after its hash marks and optional whitespace. -/
def claimFeatHeading (l : List Char) : Bool :=
  (¬ (l.takeWhile (fun c => c = '#')).isEmpty) ∧
  (featAlts.any (fun a =>
    (ciStrip a ((l.dropWhile (fun c => c = '#')).dropWhile isWsChar)).isSome))

/-- A bullet line: a marker character followed by whitespace. -/
def claimBulletLine (l : List Char) : Bool :=
  match l with
  | c :: d :: _ => isMarker c ∧ isWsChar d
  | _ => false

/-- The text of a bullet line, marker and surrounding whitespace removed. -/
def claimBulletText (l : List Char) : List Char :=
  trimChars ((l.drop 1).dropWhile isWsChar)

/-- Modelled from claim C4's wording: at most 6 bullet lines beneath the
matched heading, up to the next heading line, in original order. -/
def claimFeatures (r : List Char) : List (List Char) :=
  let lines := splitLines r
  match lines.findIdx? claimFeatHeading with
  | some i =>
    let sect := (lines.drop (i + 1)).takeWhile (fun l => ¬ isHeadingLine l)
    ((sect.filter claimBulletLine).map claimBulletText).take 6
  | none => []

/-- Modelled from claim C9's wording: a file matches the fixed naming
convention when the day- prefix is immediately followed by its numeric
component and the name ends with .html. -/
def claimDayFileNum (f : List Char) : Option Nat :=
  if dayLit.isPrefixOf f ∧ htmlLit.isSuffixOf f then
    match (f.drop 4).takeWhile Char.isDigit with
    | [] => none
    | d :: ds => some (digitsToNat (d :: ds))
  else none

/-- Modelled from claim C9's wording: one more than the maximum numeric
component of the files matching the naming convention. -/
def claimNextProjectNumber (files : List (List Char)) : Nat :=
  ((files.filterMap claimDayFileNum).foldl Nat.max 0) + 1

/-- A concrete detector input used in instantiations. -/
def rdEx : TechData :=
  { languages := some ["Python", "JavaScript"], topics := some ["react"],
    packageJson := none, requirements := none, readme := none }

/-- The repository-info value used in concrete instantiations. -/
def infoEx : RepoInfo :=
  { name := "r", description := none, html_url := "u", homepage := none,
    topics := none, created_at := "c", updated_at := "d",
    stargazers_count := 0, forks_count := 0 }

/-- Occurrence of a newline followed by two hashes anywhere in a text:
the configuration that stops the lazy capture. -/
def hasNlHashHash : List Char → Bool
  | [] => false
  | c :: t => isNlHashHash (c :: t) || hasNlHashHash t

/-- Lines joined by single newlines (the inverse of splitLines). -/
def joinNl : List (List Char) → List Char
  | [] => []
  | [l] => l
  | l :: rest => l ++ '\n' :: joinNl rest

/-- A line of a well-formed bullet section: it contains no newline, and
when it starts with a bullet marker, the marker is followed by at least
one whitespace character and then non-whitespace content. -/
def goodLine (l : List Char) : Bool :=
  decide ('\n' ∉ l) &&
    (match l with
     | c :: rest =>
       if isMarker c then
         ¬ (rest.takeWhile isWsChar).isEmpty ∧ ¬ (rest.dropWhile isWsChar).isEmpty
       else true
     | [] => true)

/-- A bullet line: marker, whitespace, then non-empty content. -/
def isBulletL (l : List Char) : Bool :=
  match l with
  | c :: rest =>
    isMarker c ∧ ¬ (rest.takeWhile isWsChar).isEmpty ∧ ¬ (rest.dropWhile isWsChar).isEmpty
  | [] => false

/-- The cleaned text of a bullet line: marker and leading whitespace
removed, then trimmed. -/
def bulletTextOf (l : List Char) : List Char :=
  trimChars ((l.drop 1).dropWhile isWsChar)

/-- No two adjacent hyphens. -/
def noDbl : List Char → Bool
  | [] => true
  | [_] => true
  | a :: b :: t => (¬ (a = '-' ∧ b = '-')) && noDbl (b :: t)

/-- Every character is a lower-case alphanumeric or a hyphen. -/
def okChars (l : List Char) : Bool := l.all (fun c => isLowerAlnum c || c = '-')

/-- The lower-cased display name of a badge, the key of deduplication. -/
def lowName (b : Badge) : List Char := lowerChars b.name

/-- No two stack entries share a display name, case-insensitively. -/
def nodupNames (stack : List Badge) : Prop := (stack.map lowName).Nodup

/-! ## Shared list lemmas -/

theorem takeWhile_append_all {p : Char → Bool} :
    ∀ {l : List Char} (r : List Char), (∀ c ∈ l, p c = true) →
      (l ++ r).takeWhile p = l ++ r.takeWhile p
  | [], r, _ => rfl
  | c :: t, r, h => by
    have hc : p c = true := h c (List.mem_cons_self c t)
    simp only [List.cons_append, List.takeWhile_cons, hc, if_true]
    rw [takeWhile_append_all r (fun d hd => h d (List.mem_cons_of_mem c hd))]

theorem dropWhile_append_all {p : Char → Bool} :
    ∀ {l : List Char} (r : List Char), (∀ c ∈ l, p c = true) →
      (l ++ r).dropWhile p = r.dropWhile p
  | [], r, _ => rfl
  | c :: t, r, h => by
    have hc : p c = true := h c (List.mem_cons_self c t)
    simp only [List.cons_append, List.dropWhile_cons, hc, if_true]
    exact dropWhile_append_all r (fun d hd => h d (List.mem_cons_of_mem c hd))

theorem takeWhile_all {p : Char → Bool} {l : List Char} (h : ∀ c ∈ l, p c = true) :
    l.takeWhile p = l := by
  have := takeWhile_append_all (p := p) (l := l) [] h
  simpa using this

/-! ## C1: error handling of fetchRepoData -/

/-- C1 counterexample: it is not the case that only a failure of the
primary repository-metadata lookup propagates as an error; a failing
languages lookup also makes fetchRepoData fail even when the primary
lookup succeeded. -/
theorem fetchRepoData_c1_cex :
    ¬ (∀ (rg : Except ApiError RepoInfo) (rr : Except ApiError String)
         (rp : Except ApiError PackageJson) (rq : Except ApiError String)
         (rl : Except ApiError (List String)),
        (fetchRepoData rg rr rp rq rl).isOk = false → rg.isOk = false) := by
  intro h
  have h2 := h (Except.ok infoEx) (Except.ok "") (Except.ok { dependencies := none })
    (Except.ok "") (Except.error ApiError.notFound) rfl
  exact absurd h2 (by decide)

/-- C1 (amended): the README, package.json and requirements.txt lookups
are swallowed on failure and returned as absent fields, while a failure
of the primary metadata lookup or of the languages lookup propagates as
the error of fetchRepoData. -/
theorem fetchRepoData_c1 (rg : Except ApiError RepoInfo)
    (rr : Except ApiError String) (rp : Except ApiError PackageJson)
    (rq : Except ApiError String) (rl : Except ApiError (List String)) :
    (fetchRepoData rg rr rp rq rl).isOk = (rg.isOk && rl.isOk)
    ∧ (∀ info langs, rg = Except.ok info → rl = Except.ok langs →
        fetchRepoData rg rr rp rq rl = Except.ok
          { name := info.name
            description := info.description.getD ""
            url := info.html_url
            homepage := info.homepage
            topics := info.topics.getD []
            languages := langs
            readme := rr.toOption
            packageJson := rp.toOption
            requirements := rq.toOption
            createdAt := info.created_at
            updatedAt := info.updated_at
            stars := info.stargazers_count
            forks := info.forks_count }) := by
  constructor
  · cases rg <;> cases rl <;> rfl
  · rintro info langs rfl rfl
    rfl

/-- C1 witness: the amended theorem at concrete lookup results. -/
theorem fetchRepoData_c1_witness :
    fetchRepoData (Except.ok infoEx) (Except.error ApiError.notFound)
        (Except.ok { dependencies := none }) (Except.error ApiError.unreachable)
        (Except.ok ["Python"]) = Except.ok
      { name := "r", description := "", url := "u", homepage := none,
        topics := [], languages := ["Python"], readme := none,
        packageJson := some { dependencies := none }, requirements := none,
        createdAt := "c", updatedAt := "d", stars := 0, forks := 0 } :=
  (fetchRepoData_c1 (Except.ok infoEx) (Except.error ApiError.notFound)
    (Except.ok { dependencies := none }) (Except.error ApiError.unreachable)
    (Except.ok ["Python"])).2 infoEx ["Python"] rfl rfl

/-! ## C10: parseReadme on falsy input -/

/-- C10: a null, undefined or empty README yields the field-less empty
object (modelled by none), while any non-empty README yields the
three-field record. -/
theorem parseReadme_c10 :
    parseReadme none = none ∧ parseReadme (some []) = none ∧
    ∀ r : List Char, r ≠ [] → parseReadme (some r) = some (parseReadmeCore r) := by
  refine ⟨rfl, rfl, ?_⟩
  intro r hr
  cases r with
  | nil => exact absurd rfl hr
  | cons c t => rfl

/-- C10 witness: the record case at a concrete one-character README. -/
theorem parseReadme_c10_witness :
    parseReadme (some ['a']) = some (parseReadmeCore ['a']) :=
  parseReadme_c10.2.2 ['a'] (by decide)

/-! ## C9: getNextProjectNumber -/

/-- The running-maximum loop of the source equals a fold of Nat.max over
the numbers extracted from the qualifying files. -/
theorem foldStep_eq_foldMax (files : List (List Char)) : ∀ m : Nat,
    (files.filter (fun f => dayLit.isPrefixOf f && htmlLit.isSuffixOf f)).foldl
      (fun m f =>
        match extractDayNum f with
        | some ds => if digitsToNat ds > m then digitsToNat ds else m
        | none => m) m
    = (files.filterMap dayFileNum).foldl Nat.max m := by
  induction files with
  | nil => intro m; rfl
  | cons f fs ih =>
    intro m
    cases hp : (dayLit.isPrefixOf f && htmlLit.isSuffixOf f) with
    | true =>
      cases hext : extractDayNum f with
      | none =>
        simp only [List.filter_cons, hp, if_true, List.foldl_cons, List.filterMap_cons,
          dayFileNum, hext]
        simp only [Option.map_none']
        exact ih m
      | some ds =>
        simp only [List.filter_cons, hp, if_true, List.foldl_cons, List.filterMap_cons,
          dayFileNum, hext]
        simp only [Option.map_some', List.foldl_cons]
        have harg : (if digitsToNat ds > m then digitsToNat ds else m)
            = Nat.max m (digitsToNat ds) := by
          simp only [Nat.max_def]
          split <;> split <;> omega
        rw [harg]
        exact ih _
    | false =>
      simp only [List.filter_cons, hp, Bool.false_eq_true, if_false, List.filterMap_cons,
        dayFileNum, hp]
      exact ih m

/-- C9 counterexample: a file whose day- prefix is not immediately
followed by digits but which contains a later day-digits occurrence is
counted by the code, contradicting the naming-convention reading of the
claim. -/
theorem getNextProjectNumber_c9_cex :
    getNextProjectNumber [("day-x-day-7.html").data] = 8 ∧
    claimNextProjectNumber [("day-x-day-7.html").data] = 1 ∧
    getNextProjectNumber [("day-x-day-7.html").data] ≠
      claimNextProjectNumber [("day-x-day-7.html").data] := by
  refine ⟨by decide, by decide, by decide⟩

/-- C9 (amended): getNextProjectNumber considers the files that start
with day-, end with .html and contain an occurrence of day- immediately
followed by digits; it returns one more than the maximum of the numbers
of the first such occurrence of each file, and 1 when no file qualifies. -/
theorem getNextProjectNumber_c9 (files : List (List Char)) :
    getNextProjectNumber files = ((files.filterMap dayFileNum).foldl Nat.max 0) + 1
    ∧ (files.filterMap dayFileNum = [] → getNextProjectNumber files = 1) := by
  have h := foldStep_eq_foldMax files 0
  constructor
  · exact congrArg (fun n => n + 1) h
  · intro hnone
    have h2 := congrArg (fun n => n + 1) h
    rw [hnone] at h2
    exact h2

/-- C9 witness: the empty-directory case returns 1. -/
theorem getNextProjectNumber_c9_witness : getNextProjectNumber ([] : List (List Char)) = 1 :=
  (getNextProjectNumber_c9 []).2 rfl

/-! ## C6: properties of the slug step -/

theorem isLowerAlnum_ne_hyphen {c : Char} (h : isLowerAlnum c = true) : c ≠ '-' := by
  intro he
  subst he
  exact absurd h (by decide)

theorem toLower_fix {c : Char} (h : (isLowerAlnum c || c = '-') = true) : c.toLower = c := by
  simp only [Bool.or_eq_true, isLowerAlnum, decide_eq_true_eq] at h
  rcases h with (⟨h1, h2⟩ | ⟨h1, h2⟩) | rfl
  · have a1 : 97 ≤ c.toNat := h1
    have a2 : c.toNat ≤ 122 := h2
    unfold Char.toLower
    rw [if_neg (by omega)]
  · have a1 : 48 ≤ c.toNat := h1
    have a2 : c.toNat ≤ 57 := h2
    unfold Char.toLower
    rw [if_neg (by omega)]
  · decide

theorem noDbl_cons_of {c : Char} {xs : List Char}
    (h1 : c = '-' → xs.head? ≠ some '-') (h2 : noDbl xs = true) :
    noDbl (c :: xs) = true := by
  cases xs with
  | nil => rfl
  | cons b t =>
    simp only [noDbl, Bool.and_eq_true, decide_eq_true_eq]
    refine ⟨fun hcb => h1 hcb.1 ?_, h2⟩
    simp [hcb.2]

theorem noDbl_tail : ∀ {l : List Char}, noDbl l = true → noDbl l.tail = true
  | [], _ => rfl
  | [_], _ => rfl
  | _ :: b :: t, h => by
    simp only [noDbl, Bool.and_eq_true, decide_eq_true_eq] at h
    simpa [List.tail] using h.2

theorem collapseAux_props : ∀ l : List Char,
    (noDbl (collapseAux true l) = true ∧ (collapseAux true l).head? ≠ some '-')
    ∧ noDbl (collapseAux false l) = true := by
  intro l
  induction l with
  | nil => exact ⟨⟨rfl, by simp [collapseAux]⟩, rfl⟩
  | cons c rest ih =>
    cases hc : isLowerAlnum c with
    | true =>
      have hcne : c ≠ '-' := isLowerAlnum_ne_hyphen hc
      have hnd : noDbl (c :: collapseAux false rest) = true :=
        noDbl_cons_of (fun h => absurd h hcne) ih.2
      refine ⟨⟨?_, ?_⟩, ?_⟩
      · simpa only [collapseAux, hc, if_true] using hnd
      · simp only [collapseAux, hc, if_true, List.head?_cons, ne_eq, Option.some.injEq]
        exact hcne
      · simpa only [collapseAux, hc, if_true] using hnd
    | false =>
      refine ⟨⟨?_, ?_⟩, ?_⟩
      · simpa only [collapseAux, hc, Bool.false_eq_true, if_false, if_true] using ih.1.1
      · simpa only [collapseAux, hc, Bool.false_eq_true, if_false, if_true] using ih.1.2
      · simp only [collapseAux, hc, Bool.false_eq_true, if_false]
        exact noDbl_cons_of (fun _ => ih.1.2) ih.1.1

theorem okChars_collapseAux : ∀ (b : Bool) (l : List Char), okChars (collapseAux b l) = true := by
  intro b l
  induction l generalizing b with
  | nil => cases b <;> rfl
  | cons c rest ih =>
    cases hc : isLowerAlnum c with
    | true =>
      cases b <;>
        · simp only [collapseAux, hc, if_true, okChars, List.all_cons, Bool.and_eq_true]
          exact ⟨by simp [hc], ih false⟩
    | false =>
      cases b with
      | true =>
        simp only [collapseAux, hc, Bool.false_eq_true, if_false, if_true]
        exact ih true
      | false =>
        simp only [collapseAux, hc, Bool.false_eq_true, if_false, okChars, List.all_cons,
          Bool.and_eq_true]
        exact ⟨by decide, ih true⟩

theorem noDbl_dropLast : ∀ {l : List Char}, noDbl l = true → noDbl l.dropLast = true
  | [], _ => rfl
  | [_], _ => rfl
  | a :: b :: t, h => by
    simp only [noDbl, Bool.and_eq_true, decide_eq_true_eq] at h
    cases t with
    | nil => rfl
    | cons d t' =>
      have ih := noDbl_dropLast (l := b :: d :: t') h.2
      simp only [List.dropLast] at ih ⊢
      exact noDbl_cons_of (fun hca => by
        intro hh
        exact h.1 ⟨hca, by simpa using hh⟩) ih

theorem noDbl_dropLast_getLast : ∀ {l : List Char}, noDbl l = true →
    l.getLast? = some '-' → l.dropLast.getLast? ≠ some '-'
  | [], _, hl => by simp at hl
  | [a], _, _ => by simp
  | a :: b :: t, h, hl => by
    simp only [noDbl, Bool.and_eq_true, decide_eq_true_eq] at h
    cases t with
    | nil =>
      have hb : b = '-' := by simpa using hl
      have ha : a ≠ '-' := fun hha => h.1 ⟨hha, hb⟩
      simpa [List.dropLast] using ha
    | cons d t' =>
      have hl2 : (b :: d :: t').getLast? = some '-' := by
        simpa [List.getLast?_cons_cons] using hl
      have ih := noDbl_dropLast_getLast (l := b :: d :: t') h.2 hl2
      have hne : (b :: d :: t').dropLast ≠ [] := by simp [List.dropLast]
      simp only [List.dropLast]
      intro hcontra
      apply ih
      rw [← hcontra]
      cases hdl : (b :: d :: t').dropLast with
      | nil => exact absurd hdl hne
      | cons x xs =>
        simp only [List.dropLast] at hdl
        rw [hdl]
        simp [List.getLast?_cons_cons]

theorem head?_dropLast (xs : List Char) :
    xs.dropLast.head? = none ∨ xs.dropLast.head? = xs.head? := by
  cases xs with
  | nil => left; rfl
  | cons a t =>
    cases t with
    | nil => left; rfl
    | cons b t' => right; simp [List.dropLast]

theorem okChars_subset {l m : List Char} (hs : m ⊆ l) (h : okChars l = true) :
    okChars m = true := by
  simp only [okChars, List.all_eq_true] at h ⊢
  exact fun c hc => h c (hs hc)

theorem stripEdge_spec {L : List Char} (hnd : noDbl L = true) (hok : okChars L = true) :
    okChars (stripEdgeHyphens L) = true ∧ noDbl (stripEdgeHyphens L) = true
    ∧ (stripEdgeHyphens L).head? ≠ some '-'
    ∧ (stripEdgeHyphens L).getLast? ≠ some '-' := by
  have hs1 : okChars (stripLead L) = true := by
    unfold stripLead
    split
    · exact okChars_subset (List.tail_subset L) hok
    · exact hok
  have hs2 : noDbl (stripLead L) = true := by
    unfold stripLead
    split
    · exact noDbl_tail hnd
    · exact hnd
  have hs3 : (stripLead L).head? ≠ some '-' := by
    unfold stripLead
    split
    · next hh =>
      cases L with
      | nil => simp at hh
      | cons a t =>
        have ha : a = '-' := by simpa using hh
        cases t with
        | nil => simp
        | cons b t' =>
          simp only [noDbl, Bool.and_eq_true, decide_eq_true_eq] at hnd
          have hb : b ≠ '-' := fun hhb => hnd.1 ⟨ha, hhb⟩
          simpa using hb
    · next hh => exact hh
  unfold stripEdgeHyphens
  split
  · next hlast =>
    refine ⟨okChars_subset (List.dropLast_subset _) hs1, noDbl_dropLast hs2, ?_, ?_⟩
    · rcases head?_dropLast (stripLead L) with h | h
      · simp [h]
      · rw [h]; exact hs3
    · exact noDbl_dropLast_getLast hs2 hlast
  · next hlast =>
    exact ⟨hs1, hs2, hs3, hlast⟩

theorem slug_core (t : List Char) :
    okChars (slugifyChars t) = true ∧ noDbl (slugifyChars t) = true
    ∧ (slugifyChars t).head? ≠ some '-'
    ∧ (slugifyChars t).getLast? ≠ some '-' := by
  unfold slugifyChars collapseRuns
  exact stripEdge_spec (collapseAux_props _).2 (okChars_collapseAux false _)

theorem okChars_tail_of_cons {c : Char} {l : List Char} (h : okChars (c :: l) = true) :
    okChars l = true := by
  simp only [okChars, List.all_cons, Bool.and_eq_true] at h
  exact h.2

theorem collapseAux_fix : ∀ {l : List Char}, okChars l = true → noDbl l = true →
    collapseAux false l = l ∧ (l.head? ≠ some '-' → collapseAux true l = l) := by
  intro l
  induction l with
  | nil => exact fun _ _ => ⟨rfl, fun _ => rfl⟩
  | cons c rest ih =>
    intro hok hnd
    have hokr : okChars rest = true := okChars_tail_of_cons hok
    have hndr : noDbl rest = true := by simpa using noDbl_tail hnd
    cases hc : isLowerAlnum c with
    | true =>
      have hfix : collapseAux false rest = rest := (ih hokr hndr).1
      constructor
      · simp [collapseAux, hc, hfix]
      · intro _; simp [collapseAux, hc, hfix]
    | false =>
      have hch : c = '-' := by
        simp only [okChars, List.all_cons, Bool.and_eq_true, Bool.or_eq_true,
          decide_eq_true_eq] at hok
        rcases hok.1 with h | h
        · exact absurd h (by simp [hc])
        · exact h
      subst hch
      have hh : rest.head? ≠ some '-' := by
        cases rest with
        | nil => simp
        | cons b t =>
          simp only [noDbl, Bool.and_eq_true, decide_eq_true_eq] at hnd
          have hb : b ≠ '-' := by
            intro hhb
            exact hnd.1 (by simp [hhb])
          simpa using hb
      have hfix : collapseAux true rest = rest := (ih hokr hndr).2 hh
      constructor
      · have hstep : collapseAux false ('-' :: rest) = '-' :: collapseAux true rest := by
          simp [collapseAux, (by decide : isLowerAlnum '-' = false)]
        rw [hstep, hfix]
      · intro h
        exact absurd rfl h

theorem map_toLower_fix : ∀ {l : List Char}, okChars l = true → l.map Char.toLower = l
  | [], _ => rfl
  | c :: t, h => by
    simp only [okChars, List.all_cons, Bool.and_eq_true] at h
    simp only [List.map_cons, toLower_fix h.1, map_toLower_fix (by simpa [okChars] using h.2)]

/-- C6: the slug step of generateFilename is idempotent, and its output
never has a leading hyphen, a trailing hyphen, or two adjacent hyphens;
the title of the specification example slugifies as stated. -/
theorem generateFilename_slug_c6 :
    (∀ t : List Char,
      slugifyChars (slugifyChars t) = slugifyChars t
      ∧ (slugifyChars t).head? ≠ some '-'
      ∧ (slugifyChars t).getLast? ≠ some '-'
      ∧ noDbl (slugifyChars t) = true)
    ∧ slugifyChars (("My Cool--App!").data) = ("my-cool-app").data := by
  constructor
  · intro t
    obtain ⟨hok, hnd, hhead, hlast⟩ := slug_core t
    refine ⟨?_, hhead, hlast, hnd⟩
    show stripEdgeHyphens (collapseRuns ((slugifyChars t).map Char.toLower)) = slugifyChars t
    rw [map_toLower_fix hok]
    unfold collapseRuns
    rw [(collapseAux_fix hok hnd).1]
    have hsl : stripLead (slugifyChars t) = slugifyChars t := by
      unfold stripLead
      rw [if_neg hhead]
    unfold stripEdgeHyphens
    rw [hsl, if_neg hlast]
  · decide

/-! ## C7: generateFilename -/

theorem firstNum_eq : ∀ (a : List Char) {d b : List Char},
    (∀ c ∈ a, c.isDigit = false) → d ≠ [] → (∀ c ∈ d, c.isDigit = true) →
    (∀ c, b.head? = some c → c.isDigit = false) →
    firstNum (a ++ d ++ b) = some d := by
  intro a
  induction a with
  | nil =>
    intro d b _ hd hdd hb
    cases d with
    | nil => exact absurd rfl hd
    | cons c t =>
      have hc : c.isDigit = true := hdd c (List.mem_cons_self c t)
      simp only [List.nil_append, List.cons_append, firstNum, hc, if_true, Option.some.injEq,
        List.cons.injEq, true_and, List.append_eq]
      rw [takeWhile_append_all b (fun x hx => hdd x (List.mem_cons_of_mem c hx))]
      cases b with
      | nil => simp
      | cons e r =>
        have he : e.isDigit = false := hb e rfl
        simp [List.takeWhile_cons, he]
  | cons x xs ih =>
    intro d b hx hd hdd hb
    have hxd : x.isDigit = false := hx x (List.mem_cons_self x xs)
    simp only [List.cons_append, firstNum, hxd, Bool.false_eq_true, if_false]
    exact ih (fun c hc => hx c (List.mem_cons_of_mem x hc)) hd hdd hb

/-- C7: generateFilename extracts the first digit run of the
project-number label and returns day-, the digits, a hyphen, the
slugified title and .html; the example of the specification holds.  The
timestamp argument is unused whenever the label contains a digit. -/
theorem generateFilename_c7 :
    (∀ (title a d b : List Char) (now : Nat),
      (∀ c ∈ a, c.isDigit = false) → d ≠ [] → (∀ c ∈ d, c.isDigit = true) →
      (∀ c, b.head? = some c → c.isDigit = false) →
      generateFilename title (a ++ d ++ b) now
        = dayLit ++ d ++ hyLit ++ slugifyChars title ++ htmlLit)
    ∧ generateFilename (("My App").data) (("Project 7").data) 0 = ("day-7-my-app.html").data := by
  constructor
  · intro title a d b now ha hd hdd hb
    unfold generateFilename
    rw [firstNum_eq a ha hd hdd hb]
  · decide

/-- C7 witness: the general part of the theorem at a concrete title and
label with digit run 4. -/
theorem generateFilename_c7_witness :
    generateFilename (("Hi").data) (['x'] ++ ['4'] ++ ['y']) 0
      = dayLit ++ ['4'] ++ hyLit ++ slugifyChars (("Hi").data) ++ htmlLit :=
  generateFilename_c7.1 (("Hi").data) ['x'] ['4'] ['y'] 0 (by decide) (by decide) (by decide)
    (by intro c hc; cases hc; decide)

/-! ## C2: parseGitHubUrl -/

theorem isPrefixOf_self_append : ∀ (l r : List Char), l.isPrefixOf (l ++ r) = true
  | [], _ => by simp [List.isPrefixOf]
  | c :: t, r => by simp [List.isPrefixOf, isPrefixOf_self_append t r]

theorem tryPatAt_none_of_head_ne {sep c : Char} {t : List Char} (h : c ≠ 'g') :
    tryPatAt sep (c :: t) = none := by
  have hpre : (ghLit ++ [sep]).isPrefixOf (c :: t) = false := by
    have hg : ghLit ++ [sep] = 'g' :: (("ithub.com").data ++ [sep]) := rfl
    rw [hg]
    simp only [List.isPrefixOf, Bool.and_eq_false_iff]
    left
    simp only [beq_eq_false_iff_ne, ne_eq]
    exact fun hh => h hh.symm
  unfold tryPatAt
  rw [if_neg (by simp [hpre])]

theorem scanPat_cons_none {sep c : Char} {t : List Char} (h : tryPatAt sep (c :: t) = none) :
    scanPat sep (c :: t) = scanPat sep t := by
  simp [scanPat, h]

theorem tryPatAt_gh (sep : Char) {owner repo : List Char} (ho : owner ≠ [])
    (ho2 : '/' ∉ owner) (hr : repo ≠ []) (hr2 : '/' ∉ repo) :
    tryPatAt sep ((ghLit ++ [sep]) ++ (owner ++ '/' :: repo)) = some (owner, repo) := by
  have howner : ∀ c ∈ owner, (decide (c ≠ '/')) = true := by
    intro c hc
    simp only [decide_eq_true_eq, ne_eq]
    exact fun hh => ho2 (hh ▸ hc)
  have hrepo : ∀ c ∈ repo, (decide (c ≠ '/')) = true := by
    intro c hc
    simp only [decide_eq_true_eq, ne_eq]
    exact fun hh => hr2 (hh ▸ hc)
  have h1 : (ghLit ++ [sep]).isPrefixOf ((ghLit ++ [sep]) ++ (owner ++ '/' :: repo)) = true :=
    isPrefixOf_self_append _ _
  have hdrop1 : ((ghLit ++ [sep]) ++ (owner ++ '/' :: repo)).drop (ghLit.length + 1)
      = owner ++ '/' :: repo := by
    have hlen : ghLit.length + 1 = (ghLit ++ [sep]).length := by simp
    rw [hlen, List.drop_left]
  have htake : (owner ++ '/' :: repo).takeWhile (fun c => c ≠ '/') = owner := by
    rw [takeWhile_append_all _ howner]
    simp [List.takeWhile_cons]
  have hne1 : owner.isEmpty = false := by simp [List.isEmpty_iff, ho]
  have hdrop2 : (owner ++ '/' :: repo).drop owner.length = '/' :: repo := List.drop_left _ _
  have htake2 : repo.takeWhile (fun c => c ≠ '/') = repo := takeWhile_all hrepo
  have hne2 : repo.isEmpty = false := by simp [List.isEmpty_iff, hr]
  simp only [tryPatAt, h1, if_true, hdrop1, htake, hne1, Bool.false_eq_true, if_false,
    hdrop2, htake2, hne2]

/-- C2: for the canonical https repository reference the parser returns
the owner and the repo with a trailing .git stripped (the leftmost match
of the first pattern), and every input on which neither pattern matches
anywhere yields the invalid-reference error. -/
theorem parseGitHubUrl_c2 :
    (∀ owner repo : List Char, owner ≠ [] → '/' ∉ owner → repo ≠ [] → '/' ∉ repo →
      parseGitHubUrl (("https://github.com/").data ++ owner ++ ('/' :: repo))
        = Except.ok (owner, stripGitSuf repo))
    ∧ (∀ url : List Char, scanPat '/' url = none → scanPat ':' url = none →
        parseGitHubUrl url = Except.error (invalidLit ++ url)) := by
  constructor
  · intro owner repo ho ho2 hr hr2
    have hscan : scanPat '/' (("https://github.com/").data ++ owner ++ ('/' :: repo))
        = some (owner, repo) := by
      have hsplit : ("https://github.com/").data ++ owner ++ ('/' :: repo)
          = 'h' :: 't' :: 't' :: 'p' :: 's' :: ':' :: '/' :: '/' ::
            ((ghLit ++ ['/']) ++ (owner ++ '/' :: repo)) := by
        simp [ghLit]
      rw [hsplit]
      rw [scanPat_cons_none (tryPatAt_none_of_head_ne (by decide))]
      rw [scanPat_cons_none (tryPatAt_none_of_head_ne (by decide))]
      rw [scanPat_cons_none (tryPatAt_none_of_head_ne (by decide))]
      rw [scanPat_cons_none (tryPatAt_none_of_head_ne (by decide))]
      rw [scanPat_cons_none (tryPatAt_none_of_head_ne (by decide))]
      rw [scanPat_cons_none (tryPatAt_none_of_head_ne (by decide))]
      rw [scanPat_cons_none (tryPatAt_none_of_head_ne (by decide))]
      rw [scanPat_cons_none (tryPatAt_none_of_head_ne (by decide))]
      have hcons : (ghLit ++ ['/']) ++ (owner ++ '/' :: repo)
          = 'g' :: (("ithub.com/").data ++ (owner ++ '/' :: repo)) := by
        simp [ghLit]
      rw [hcons]
      have hback : 'g' :: (("ithub.com/").data ++ (owner ++ '/' :: repo))
          = (ghLit ++ ['/']) ++ (owner ++ '/' :: repo) := hcons.symm
      simp only [scanPat]
      rw [hback, tryPatAt_gh '/' ho ho2 hr hr2]
    unfold parseGitHubUrl
    rw [hscan]
  · intro url h1 h2
    unfold parseGitHubUrl
    rw [h1, h2]

/-- C2 witness: the theorem at a concrete owner, repo and a
non-matching input. -/
theorem parseGitHubUrl_c2_witness :
    parseGitHubUrl (("https://github.com/").data ++ ("abc").data ++ ('/' :: ("r.git").data))
        = Except.ok (("abc").data, stripGitSuf (("r.git").data))
    ∧ parseGitHubUrl (("nope").data) = Except.error (invalidLit ++ ("nope").data) :=
  ⟨parseGitHubUrl_c2.1 (("abc").data) (("r.git").data) (by decide) (by decide) (by decide)
      (by decide),
   parseGitHubUrl_c2.2 (("nope").data) (by decide) (by decide)⟩

/-! ## C5: invariants of detectTechStack -/

theorem techMappings_mem {k : String} {b : Badge} (h : techMappings k = some b) :
    (k, b) ∈ mappingPairs := by
  unfold techMappings at h
  cases hf : mappingPairs.find? (fun p => p.1 == k) with
  | none => rw [hf] at h; cases h
  | some p =>
    rw [hf] at h
    have hp : p ∈ mappingPairs := List.mem_of_find?_eq_some hf
    have hk := List.find?_some hf
    have hk2 : p.1 = k := by simpa using hk
    have hb : p.2 = b := by simpa using h
    have heq : (k, b) = p := by
      cases p
      simp_all
    rw [heq]
    exact hp

theorem mappingNames_nodup : (mappingPairs.map (fun p => lowName p.2)).Nodup := by decide

theorem techMappings_name_inj {k₁ k₂ : String} {b₁ b₂ : Badge}
    (h1 : techMappings k₁ = some b₁) (h2 : techMappings k₂ = some b₂)
    (hn : lowName b₁ = lowName b₂) : k₁ = k₂ := by
  have hm1 := techMappings_mem h1
  have hm2 := techMappings_mem h2
  have hpp : (k₁, b₁) = (k₂, b₂) :=
    List.inj_on_of_nodup_map mappingNames_nodup hm1 hm2 (by simpa using hn)
  exact congrArg Prod.fst hpp

theorem nodupNames_push {stack : List Badge} {b : Badge}
    (hs : nodupNames stack) (hh : hasName stack b = false) : nodupNames (stack ++ [b]) := by
  unfold nodupNames at *
  rw [List.map_append]
  refine List.Nodup.append hs (List.nodup_singleton _) ?_
  intro x hx hy
  simp only [List.map_cons, List.map_nil, List.mem_singleton] at hy
  subst hy
  simp only [List.mem_map] at hx
  obtain ⟨t, ht, hteq⟩ := hx
  simp only [hasName, List.any_eq_false, decide_eq_true_eq] at hh
  exact hh t ht (by simpa [lowName, lowerChars] using hteq)

theorem addLangs_nodup : ∀ (ls : List String) (stack : List Badge),
    nodupNames stack → ls.Nodup →
    (∀ l ∈ ls, ∀ b, techMappings l = some b → ∀ t ∈ stack, lowName t ≠ lowName b) →
    nodupNames (addLangs stack ls) := by
  intro ls
  induction ls with
  | nil => intro stack hs _ _; exact hs
  | cons l ls ih =>
    intro stack hs hn hdisj
    have hn' : ls.Nodup := (List.nodup_cons.mp hn).2
    have hlnotmem : l ∉ ls := (List.nodup_cons.mp hn).1
    cases hm : techMappings l with
    | none =>
      simp only [addLangs, hm]
      exact ih stack hs hn'
        (fun l' hl' b hb t ht => hdisj l' (List.mem_cons_of_mem _ hl') b hb t ht)
    | some b =>
      simp only [addLangs, hm]
      apply ih (stack ++ [b])
      · unfold nodupNames
        rw [List.map_append]
        refine List.Nodup.append hs (List.nodup_singleton _) ?_
        intro x hx hy
        simp only [List.map_cons, List.map_nil, List.mem_singleton] at hy
        subst hy
        simp only [List.mem_map] at hx
        obtain ⟨t, ht, hteq⟩ := hx
        exact hdisj l (List.mem_cons_self l ls) b hm t ht hteq
      · exact hn'
      · intro l' hl' b' hb' t ht
        rcases List.mem_append.mp ht with ht | ht
        · exact hdisj l' (List.mem_cons_of_mem _ hl') b' hb' t ht
        · have htb : t = b := by simpa using ht
          subst htb
          intro heq
          have hll : l = l' := techMappings_name_inj hm hb' heq
          exact hlnotmem (by rw [hll]; exact hl')

theorem addTopics_nodup : ∀ (ts : List String) (stack : List Badge),
    nodupNames stack → nodupNames (addTopics stack ts) := by
  intro ts
  induction ts with
  | nil => exact fun _ hs => hs
  | cons t ts ih =>
    intro stack hs
    cases hm : techMappings (String.map Char.toLower t) with
    | none =>
      simp only [addTopics, hm]
      exact ih stack hs
    | some b =>
      cases hh : hasName stack b with
      | true =>
        simp only [addTopics, hm, hh, if_true]
        exact ih stack hs
      | false =>
        simp only [addTopics, hm, hh, Bool.false_eq_true, if_false]
        exact ih _ (nodupNames_push hs hh)

theorem addDeps_nodup (deps : List String) : ∀ (tbl : List (String × String)) (stack : List Badge),
    nodupNames stack → nodupNames (addDeps deps stack tbl) := by
  intro tbl
  induction tbl with
  | nil => exact fun _ hs => hs
  | cons e rest ih =>
    intro stack hs
    obtain ⟨dep, key⟩ := e
    cases hm : techMappings key with
    | none =>
      simp only [addDeps, hm]
      exact ih stack hs
    | some b =>
      by_cases hcond : (deps.contains dep = true ∧ ¬ hasName stack b = true)
      · simp only [addDeps, hm, if_pos hcond]
        refine ih _ (nodupNames_push hs ?_)
        cases hhb : hasName stack b with
        | true => exact absurd hhb hcond.2
        | false => rfl
      · simp only [addDeps, hm, if_neg hcond]
        exact ih stack hs

theorem addReqs_nodup (reqLower : List Char) :
    ∀ (tbl : List (String × String)) (stack : List Badge),
    nodupNames stack → nodupNames (addReqs reqLower stack tbl) := by
  intro tbl
  induction tbl with
  | nil => exact fun _ hs => hs
  | cons e rest ih =>
    intro stack hs
    obtain ⟨pkg, key⟩ := e
    cases hm : techMappings key with
    | none =>
      simp only [addReqs, hm]
      exact ih stack hs
    | some b =>
      by_cases hcond : (containsSeq (pkg.data) reqLower = true ∧ ¬ hasName stack b = true)
      · simp only [addReqs, hm, if_pos hcond]
        refine ih _ (nodupNames_push hs ?_)
        cases hhb : hasName stack b with
        | true => exact absurd hhb hcond.2
        | false => rfl
      · simp only [addReqs, hm, if_neg hcond]
        exact ih stack hs

theorem stageLangs_nodup (o : Option (List String)) (h : ∀ ls, o = some ls → ls.Nodup) :
    nodupNames (stageLangs o) := by
  cases ho : o with
  | none => simp [stageLangs, nodupNames]
  | some ls =>
    simp only [stageLangs]
    refine addLangs_nodup _ [] (by simp [nodupNames]) ?_ ?_
    · exact List.Nodup.sublist (List.take_sublist 3 ls) (h ls ho)
    · intro l hl' b hb t ht
      cases ht

theorem stageTopics_nodup (o : Option (List String)) (stack : List Badge)
    (hs : nodupNames stack) : nodupNames (stageTopics o stack) := by
  cases o with
  | none => exact hs
  | some ts => exact addTopics_nodup ts stack hs

theorem stagePkg_nodup (o : Option PackageJson) (stack : List Badge)
    (hs : nodupNames stack) : nodupNames (stagePkg o stack) := by
  cases o with
  | none => exact hs
  | some pj =>
    cases hd : pj.dependencies with
    | none => simpa [stagePkg, hd] using hs
    | some deps => simpa [stagePkg, hd] using addDeps_nodup deps depMapList stack hs

theorem stageReqs_nodup (o : Option String) (stack : List Badge)
    (hs : nodupNames stack) : nodupNames (stageReqs o stack) := by
  cases o with
  | none => exact hs
  | some req => exact addReqs_nodup (lowerChars req.data) pyMapList stack hs

/-- C5: for every detector input whose languages object has distinct
keys (which JavaScript object keys always are), the detected stack has
at most 4 entries and no two entries share a display name
case-insensitively. -/
theorem detectTechStack_c5 (rd : TechData)
    (hl : ∀ ls, rd.languages = some ls → ls.Nodup) :
    (detectTechStack rd).length ≤ 4
    ∧ ((detectTechStack rd).map lowName).Nodup := by
  have h4 : nodupNames (stageReqs rd.requirements
      (stagePkg rd.packageJson (stageTopics rd.topics (stageLangs rd.languages)))) :=
    stageReqs_nodup _ _ (stagePkg_nodup _ _ (stageTopics_nodup _ _ (stageLangs_nodup _ hl)))
  constructor
  · unfold detectTechStack
    simpa using List.length_take_le 4 _
  · unfold detectTechStack
    rw [List.map_take]
    exact List.Nodup.sublist (List.take_sublist _ _) h4

/-- C5 witness: the invariants at a concrete detector input. -/
theorem detectTechStack_c5_witness :
    (detectTechStack rdEx).length ≤ 4
    ∧ ((detectTechStack rdEx).map lowName).Nodup :=
  detectTechStack_c5 rdEx (by
    intro ls h
    have hls : ls = ["Python", "JavaScript"] := by
      have h2 : some ["Python", "JavaScript"] = some ls := h
      injection h2 with h3
      exact h3.symm
    rw [hls]
    decide)

/-! ## C8: updateBrowseHtml -/

theorem eatLit_suffix {lit s r : List Char} (h : eatLit lit s = some r) : r <:+ s := by
  unfold eatLit at h
  split at h
  · injection h with h2
    rw [← h2]
    exact List.drop_suffix _ _
  · cases h

theorem eatWs_suffix (s : List Char) : eatWs s <:+ s := List.dropWhile_suffix _

theorem eatWsNl_suffix {s r : List Char} (h : eatWsNl s = some r) : r <:+ s := by
  simp only [eatWsNl] at h
  split at h
  · injection h with h2
    rw [← h2]
    exact List.drop_suffix _ _
  · cases h

theorem suffix_take_append {s r : List Char} (h : r <:+ s) :
    s.take (s.length - r.length) ++ r = s := by
  obtain ⟨u, hu⟩ := h
  subst hu
  have hl : (u ++ r).length - r.length = u.length := by simp
  rw [hl, List.take_left]

theorem matchPrimaryAt_split {s m post : List Char}
    (h : matchPrimaryAt s = some (m, post)) : m ++ post = s := by
  unfold matchPrimaryAt at h
  simp only [bind, pure, Option.bind_eq_some, Option.some.injEq, Prod.mk.injEq] at h
  obtain ⟨r1, h1, r2, h2, r3, h3, r4, h4, r5, h5, r6, h6, hm, hp⟩ := h
  have hsuf : r6 <:+ s :=
    ((((((eatLit_suffix h6).trans (eatWsNl_suffix h5)).trans
      (eatLit_suffix h4)).trans ((eatWs_suffix r3).trans (eatLit_suffix h3))).trans
      ((eatWs_suffix r2).trans (eatLit_suffix h2))).trans
      ((eatWs_suffix r1).trans (eatLit_suffix h1)))
  subst hp
  rw [← hm]
  exact suffix_take_append hsuf

theorem matchFallbackAt_split {s m post : List Char}
    (h : matchFallbackAt s = some (m, post)) : m ++ post = s := by
  unfold matchFallbackAt at h
  simp only [bind, pure, Option.bind_eq_some, Option.some.injEq, Prod.mk.injEq] at h
  obtain ⟨r1, h1, r2, h2, r3, h3, hm, hp⟩ := h
  have hsuf : r3 <:+ s :=
    ((eatLit_suffix h3).trans (eatWsNl_suffix h2)).trans (eatLit_suffix h1)
  subst hp
  rw [← hm]
  exact suffix_take_append hsuf

theorem scanForAux_split {f : List Char → Option (List Char × List Char)}
    (hf : ∀ s m post, f s = some (m, post) → m ++ post = s) :
    ∀ (s acc pre m post : List Char), scanForAux f acc s = some (pre, m, post) →
      acc.reverse ++ s = pre ++ m ++ post := by
  intro s
  induction s with
  | nil =>
    intro acc pre m post h
    cases hfs : f [] with
    | some r =>
      obtain ⟨m0, post0⟩ := r
      simp only [scanForAux, hfs, Option.some.injEq, Prod.mk.injEq] at h
      obtain ⟨e1, e2, e3⟩ := h
      subst e1; subst e2; subst e3
      rw [List.append_assoc, hf [] m0 post0 hfs]
    | none =>
      simp only [scanForAux, hfs] at h
      exact Option.noConfusion h
  | cons c t ih =>
    intro acc pre m post h
    cases hfs : f (c :: t) with
    | some r =>
      obtain ⟨m0, post0⟩ := r
      simp only [scanForAux, hfs, Option.some.injEq, Prod.mk.injEq] at h
      obtain ⟨e1, e2, e3⟩ := h
      subst e1; subst e2; subst e3
      rw [List.append_assoc, hf (c :: t) m0 post0 hfs]
    | none =>
      simp only [scanForAux, hfs] at h
      have ih2 := ih (c :: acc) pre m post h
      rw [← ih2]
      simp

/-- C8 (amended): when neither anchor pattern matches anywhere in the
gallery content, updateBrowseHtml fails with the anchor-not-found error
and produces no new content; when a pattern matches, the leftmost
matched anchor text is replaced by the card followed by the fixed
canonical closing block, the content outside the matched region being
preserved. -/
theorem updateBrowseHtml_c8 (card content pre m post : List Char) :
    (scanFor matchPrimaryAt content = none → scanFor matchFallbackAt content = none →
      updateBrowseHtml card content = Except.error anchorErrLit)
    ∧ (scanFor matchPrimaryAt content = some (pre, m, post) →
        content = pre ++ m ++ post
        ∧ updateBrowseHtml card content = Except.ok (pre ++ card ++ replTail ++ post))
    ∧ (scanFor matchPrimaryAt content = none →
        scanFor matchFallbackAt content = some (pre, m, post) →
        content = pre ++ m ++ post
        ∧ updateBrowseHtml card content = Except.ok (pre ++ card ++ replTail ++ post)) := by
  refine ⟨?_, ?_, ?_⟩
  · intro h1 h2
    unfold updateBrowseHtml
    rw [h1, h2]
  · intro h1
    constructor
    · have hsp := scanForAux_split (fun s m post => matchPrimaryAt_split) content [] pre m post h1
      simp only [List.reverse_nil, List.nil_append] at hsp
      rw [hsp]
    · unfold updateBrowseHtml
      rw [h1]
  · intro h1 h2
    constructor
    · have hsp := scanForAux_split (fun s m post => matchFallbackAt_split) content [] pre m post h2
      simp only [List.reverse_nil, List.nil_append] at hsp
      rw [hsp]
    · unfold updateBrowseHtml
      rw [h1, h2]

/-- C8 counterexample: at a concrete gallery content on which the
primary anchor pattern matches, the produced content differs from the
card spliced immediately before the matched anchor with the rest of the
document preserved byte-for-byte. -/
theorem updateBrowseHtml_c8_cex :
    scanFor matchPrimaryAt
        (("AAA").data ++ ("</div> </div>\n</div> </section>\n<!-- Professional Experience -->").data
          ++ ("ZZZ").data)
      = some (("AAA").data,
          ("</div> </div>\n</div> </section>\n<!-- Professional Experience -->").data,
          ("ZZZ").data)
    ∧ updateBrowseHtml (("CARD").data)
        (("AAA").data ++ ("</div> </div>\n</div> </section>\n<!-- Professional Experience -->").data
          ++ ("ZZZ").data)
      ≠ Except.ok
          (("AAA").data ++ ("CARD").data
            ++ ("</div> </div>\n</div> </section>\n<!-- Professional Experience -->").data
            ++ ("ZZZ").data) := by
  constructor
  · decide
  · decide

/-- C8 witness: the amended theorem at the concrete gallery content. -/
theorem updateBrowseHtml_c8_witness :
    ("AAA").data ++ ("</div></div></div></section>\n<!-- Professional Experience -->").data
        ++ ("ZZZ").data
      = ("AAA").data ++ ("</div></div></div></section>\n<!-- Professional Experience -->").data
        ++ ("ZZZ").data
    ∧ updateBrowseHtml (("CARD").data)
        (("AAA").data ++ ("</div></div></div></section>\n<!-- Professional Experience -->").data
          ++ ("ZZZ").data)
      = Except.ok (("AAA").data ++ ("CARD").data ++ replTail ++ ("ZZZ").data) :=
  (updateBrowseHtml_c8 (("CARD").data)
    (("AAA").data ++ ("</div></div></div></section>\n<!-- Professional Experience -->").data
      ++ ("ZZZ").data)
    (("AAA").data)
    (("</div></div></div></section>\n<!-- Professional Experience -->").data)
    (("ZZZ").data)).2.1 (by decide)

/-! ## C3: the description heuristic -/

/-- C3 counterexample: a single-paragraph README starting with a heading
line.  The claim's paragraph-level conditions reject the paragraph (it
starts with a heading marker), predicting an empty description, but the
code first strips the leading heading line and accepts the remainder. -/
theorem parseReadme_description_c3_cex :
    claimDescription
        (("# T\nThis line is definitely longer than fifty characters in total size.").data)
      = []
    ∧ (parseReadmeCore
        (("# T\nThis line is definitely longer than fifty characters in total size.").data)).description
      = ("This line is definitely longer than fifty characters in total size.").data
    ∧ (parseReadmeCore
        (("# T\nThis line is definitely longer than fifty characters in total size.").data)).description
      ≠ claimDescription
        (("# T\nThis line is definitely longer than fifty characters in total size.").data) := by
  refine ⟨by decide, by decide, by decide⟩

theorem findDescriptionIn_eq : ∀ ps : List (List Char),
    findDescriptionIn ps
      = (match (ps.map cleanedPara).find? qualifies with
         | some c => flatten500 c
         | none => []) := by
  intro ps
  induction ps with
  | nil => rfl
  | cons p ps ih =>
    cases hq : qualifies (cleanedPara p) with
    | true =>
      simp only [findDescriptionIn, hq, if_true, List.map_cons, List.find?_cons_of_pos _ hq]
    | false =>
      simp only [findDescriptionIn, hq, Bool.false_eq_true, if_false, List.map_cons]
      rw [List.find?_cons_of_neg]
      · exact ih
      · simp [hq]

theorem flatten500_length (c : List Char) : (flatten500 c).length ≤ 500 := by
  simp only [flatten500]
  simpa using List.length_take_le 500 _

theorem flatten500_no_newline (c : List Char) : '\n' ∉ flatten500 c := by
  intro hmem
  simp only [flatten500] at hmem
  have hmem2 := List.take_subset _ _ hmem
  simp only [List.mem_map] at hmem2
  obtain ⟨ch, _, heq⟩ := hmem2
  by_cases hc : ch = '\n'
  · rw [if_pos hc] at heq
    exact absurd heq (by decide)
  · rw [if_neg hc] at heq
    exact hc heq

/-- C3 (amended): the description is the first paragraph whose cleaned
form — the leading heading line removed by the anchored replace, then
trimmed — is non-empty, does not start with a hash or a code fence, and
exceeds 50 characters; the description is that cleaned form with
newlines flattened to spaces, truncated to 500 characters, and empty
when no paragraph qualifies.  Consequently it is always at most 500
characters and contains no newline. -/
theorem parseReadme_description_c3 :
    (∀ r : List Char, (parseReadmeCore r).description
      = (match ((splitParas r).map cleanedPara).find? qualifies with
         | some c => flatten500 c
         | none => []))
    ∧ (∀ r : List Char, (parseReadmeCore r).description.length ≤ 500
        ∧ '\n' ∉ (parseReadmeCore r).description)
    ∧ (parseReadmeCore
        (("# T\nThis line is definitely longer than fifty characters in total size.").data)).description
      = ("This line is definitely longer than fifty characters in total size.").data := by
  have hdesc : ∀ r : List Char,
      (parseReadmeCore r).description = findDescriptionIn (splitParas r) := fun _ => rfl
  refine ⟨?_, ?_, by decide⟩
  · intro r
    rw [hdesc r]
    exact findDescriptionIn_eq (splitParas r)
  · intro r
    rw [hdesc r, findDescriptionIn_eq (splitParas r)]
    cases hf : ((splitParas r).map cleanedPara).find? qualifies with
    | some c =>
      simp only
      exact ⟨flatten500_length c, flatten500_no_newline c⟩
    | none =>
      simp only
      exact ⟨by simp, by simp⟩

/-! ## C4: the features heuristic -/

theorem tryBullet_rem_le {rest text rem : List Char} (h : tryBullet rest = some (text, rem)) :
    rem.length ≤ rest.length := by
  have hw : (rest.takeWhile isWsChar).length ≤ rest.length :=
    (List.takeWhile_sublist isWsChar).length_le
  simp only [tryBullet] at h
  split at h
  · exact absurd h (by simp)
  · split at h
    · split at h
      · simp only [Option.some.injEq, Prod.mk.injEq] at h
        obtain ⟨_, hrem⟩ := h
        rw [← hrem]
        simp only [List.length_drop]
        omega
      · exact absurd h (by simp)
    · rename_i c t heq
      simp only [Option.some.injEq, Prod.mk.injEq] at h
      obtain ⟨_, hrem⟩ := h
      rw [← hrem]
      have h2 : (c :: t).length ≤ rest.length := by
        rw [← heq]
        simp only [List.length_drop]
        omega
      simp only [List.length_drop]
      omega

theorem bulletsFuel_eq : ∀ (f1 : Nat) {f2 : Nat} (lineStart : Bool) (s : List Char),
    s.length ≤ f1 → s.length ≤ f2 → bulletsFuel f1 lineStart s = bulletsFuel f2 lineStart s := by
  intro f1
  induction f1 with
  | zero =>
    intro f2 lineStart s h1 _
    have hs : s = [] := List.length_eq_zero.mp (Nat.le_zero.mp h1)
    subst hs
    cases f2 <;> rfl
  | succ f1 ih =>
    intro f2 lineStart s h1 h2
    cases s with
    | nil => cases f2 <;> rfl
    | cons c rest =>
      cases f2 with
      | zero => exact absurd h2 (by simp)
      | succ f2 =>
        simp only [bulletsFuel]
        have hr1 : rest.length ≤ f1 := by simpa using h1
        have hr2 : rest.length ≤ f2 := by simpa using h2
        split
        · cases htb : tryBullet rest with
          | none => exact ih _ _ hr1 hr2
          | some r =>
            obtain ⟨text, rem⟩ := r
            have hle := tryBullet_rem_le htb
            exact congrArg (List.cons text) (ih _ _ (hle.trans hr1) (hle.trans hr2))
        · exact ih _ _ hr1 hr2

theorem bulletsFuel_false_nonl : ∀ (l : List Char) (fuel : Nat), l.length ≤ fuel →
    '\n' ∉ l → bulletsFuel fuel false l = [] := by
  intro l
  induction l with
  | nil => intro fuel _ _; cases fuel <;> rfl
  | cons c rest ih =>
    intro fuel hlen hnl
    cases fuel with
    | zero => exact absurd hlen (by simp)
    | succ fuel =>
      have hc : c ≠ '\n' := fun hcc => hnl (hcc ▸ List.mem_cons_self c rest)
      have hstep : bulletsFuel (fuel + 1) false (c :: rest)
          = bulletsFuel fuel (decide (c = '\n')) rest := by
        simp [bulletsFuel]
      rw [hstep, decide_eq_false hc]
      exact ih fuel (by simpa using hlen) (fun hm => hnl (List.mem_cons_of_mem c hm))

theorem bulletsFuel_false_nl : ∀ (l T : List Char) (fuel : Nat),
    (l ++ '\n' :: T).length ≤ fuel → '\n' ∉ l →
    bulletsFuel fuel false (l ++ '\n' :: T) = bulletsFuel T.length true T := by
  intro l
  induction l with
  | nil =>
    intro T fuel hlen _
    cases fuel with
    | zero => exact absurd hlen (by simp)
    | succ fuel =>
      have hstep : bulletsFuel (fuel + 1) false ([] ++ '\n' :: T)
          = bulletsFuel fuel (decide (('\n' : Char) = '\n')) T := by
        simp [bulletsFuel]
      rw [hstep, decide_eq_true rfl]
      exact bulletsFuel_eq fuel true T (by simpa using hlen) (Nat.le_refl _)
  | cons c rest ih =>
    intro T fuel hlen hnl
    cases fuel with
    | zero => exact absurd hlen (by simp)
    | succ fuel =>
      have hc : c ≠ '\n' := fun hcc => hnl (hcc ▸ List.mem_cons_self c rest)
      have hstep : bulletsFuel (fuel + 1) false ((c :: rest) ++ '\n' :: T)
          = bulletsFuel fuel (decide (c = '\n')) (rest ++ '\n' :: T) := by
        simp [bulletsFuel]
      rw [hstep, decide_eq_false hc]
      exact ih T fuel (by simpa using hlen) (fun hm => hnl (List.mem_cons_of_mem c hm))

theorem dropWhile_head_false {p : Char → Bool} :
    ∀ {l : List Char} {d : Char} {ds : List Char}, l.dropWhile p = d :: ds → p d = false := by
  intro l
  induction l with
  | nil => intro d ds h; cases h
  | cons c t ih =>
    intro d ds h
    cases hp : p c with
    | true =>
      rw [List.dropWhile_cons] at h
      simp only [hp, if_true] at h
      exact ih h
    | false =>
      rw [List.dropWhile_cons] at h
      simp only [hp, Bool.false_eq_true, if_false, List.cons.injEq] at h
      rw [← h.1]
      exact hp

theorem tryBullet_at_line {cs T : List Char}
    (hws : ¬ (cs.takeWhile isWsChar).isEmpty = true)
    (hct : ¬ (cs.dropWhile isWsChar).isEmpty = true)
    (hnl : '\n' ∉ cs) :
    tryBullet (cs ++ '\n' :: T) = some (trimChars (cs.dropWhile isWsChar), '\n' :: T) := by
  obtain ⟨d, ds, hcontent⟩ : ∃ d ds, cs.dropWhile isWsChar = d :: ds := by
    cases hdw : cs.dropWhile isWsChar with
    | nil => rw [hdw] at hct; exact absurd rfl hct
    | cons d ds => exact ⟨d, ds, rfl⟩
  have hd : isWsChar d = false := dropWhile_head_false hcontent
  have hsplit : cs = cs.takeWhile isWsChar ++ d :: ds := by
    conv_lhs => rw [← List.takeWhile_append_dropWhile isWsChar cs]
    rw [hcontent]
  have hmemtail : ∀ a ∈ d :: ds, (decide (a ≠ '\n')) = true := by
    intro a ha
    simp only [decide_eq_true_eq, ne_eq]
    intro haeq
    subst haeq
    apply hnl
    rw [hsplit]
    exact List.mem_append_right _ ha
  have hw : (cs ++ '\n' :: T).takeWhile isWsChar = cs.takeWhile isWsChar := by
    conv_lhs => rw [hsplit]
    rw [show (cs.takeWhile isWsChar ++ d :: ds) ++ '\n' :: T
        = cs.takeWhile isWsChar ++ (d :: (ds ++ '\n' :: T)) by simp]
    rw [takeWhile_append_all _ (fun a ha => List.mem_takeWhile_imp ha)]
    simp [List.takeWhile_cons, hd]
  have hcs2 : cs ++ '\n' :: T = cs.takeWhile isWsChar ++ (d :: (ds ++ '\n' :: T)) := by
    conv_lhs => rw [hsplit]
    simp
  have hdrop : (cs ++ '\n' :: T).drop (cs.takeWhile isWsChar).length
      = d :: (ds ++ '\n' :: T) := by
    have key := List.drop_left (cs.takeWhile isWsChar) (d :: (ds ++ '\n' :: T))
    rw [← hcs2] at key
    exact key
  have hdot : (d :: (ds ++ '\n' :: T)).takeWhile (fun c => c ≠ '\n') = d :: ds := by
    rw [show d :: (ds ++ '\n' :: T) = (d :: ds) ++ '\n' :: T by simp]
    rw [takeWhile_append_all _ hmemtail]
    simp [List.takeWhile_cons]
  have hrem : (d :: (ds ++ '\n' :: T)).drop (d :: ds).length = '\n' :: T := by
    rw [show d :: (ds ++ '\n' :: T) = (d :: ds) ++ '\n' :: T by simp]
    exact List.drop_left _ _
  simp only [tryBullet, hw]
  rw [if_neg hws]
  simp only [hdrop, hdot, hrem, hcontent]

theorem tryBullet_at_last {cs : List Char}
    (hws : ¬ (cs.takeWhile isWsChar).isEmpty = true)
    (hct : ¬ (cs.dropWhile isWsChar).isEmpty = true)
    (hnl : '\n' ∉ cs) :
    tryBullet cs = some (trimChars (cs.dropWhile isWsChar), []) := by
  obtain ⟨d, ds, hcontent⟩ : ∃ d ds, cs.dropWhile isWsChar = d :: ds := by
    cases hdw : cs.dropWhile isWsChar with
    | nil => rw [hdw] at hct; exact absurd rfl hct
    | cons d ds => exact ⟨d, ds, rfl⟩
  have hsplit : cs = cs.takeWhile isWsChar ++ d :: ds := by
    conv_lhs => rw [← List.takeWhile_append_dropWhile isWsChar cs]
    rw [hcontent]
  have hmemtail : ∀ a ∈ d :: ds, (decide (a ≠ '\n')) = true := by
    intro a ha
    simp only [decide_eq_true_eq, ne_eq]
    intro haeq
    subst haeq
    apply hnl
    rw [hsplit]
    exact List.mem_append_right _ ha
  have hdrop : cs.drop (cs.takeWhile isWsChar).length = d :: ds := by
    have key := List.drop_left (cs.takeWhile isWsChar) (d :: ds)
    rw [← hsplit] at key
    exact key
  have hdot : (d :: ds).takeWhile (fun c => c ≠ '\n') = d :: ds :=
    takeWhile_all hmemtail
  have hrem : (d :: ds).drop (d :: ds).length = [] := by
    simp
  simp only [tryBullet, hdrop]
  rw [if_neg hws]
  simp only [hdot, hrem, hcontent]

theorem bulletsFuel_bullet_line {c : Char} {cs T : List Char} {fuel : Nat}
    (hm : isMarker c = true)
    (hws : ¬ (cs.takeWhile isWsChar).isEmpty = true)
    (hct : ¬ (cs.dropWhile isWsChar).isEmpty = true)
    (hnl : '\n' ∉ cs)
    (hlen : ((c :: cs) ++ '\n' :: T).length ≤ fuel) :
    bulletsFuel fuel true ((c :: cs) ++ '\n' :: T)
      = bulletTextOf (c :: cs) :: bulletsFuel T.length true T := by
  cases fuel with
  | zero => exact absurd hlen (by simp)
  | succ fuel =>
    have hstep : bulletsFuel (fuel + 1) true ((c :: cs) ++ '\n' :: T)
        = (match tryBullet (cs ++ '\n' :: T) with
           | some (text, rem) => text :: bulletsFuel fuel false rem
           | none => bulletsFuel fuel (decide (c = '\n')) (cs ++ '\n' :: T)) := by
      simp [bulletsFuel, hm]
    rw [hstep, tryBullet_at_line hws hct hnl]
    have hhead : trimChars (cs.dropWhile isWsChar) = bulletTextOf (c :: cs) := by
      simp [bulletTextOf]
    have htail : bulletsFuel fuel false ('\n' :: T) = bulletsFuel T.length true T := by
      have := bulletsFuel_false_nl [] T fuel (by simp at hlen ⊢; omega) (by simp)
      simpa using this
    simp only [hhead, htail]

theorem bulletsFuel_other_line {l T : List Char} {fuel : Nat}
    (hnm : l = [] ∨ ∃ c cs, l = c :: cs ∧ isMarker c = false)
    (hnl : '\n' ∉ l)
    (hlen : (l ++ '\n' :: T).length ≤ fuel) :
    bulletsFuel fuel true (l ++ '\n' :: T) = bulletsFuel T.length true T := by
  cases fuel with
  | zero => exact absurd hlen (by simp)
  | succ fuel =>
    rcases hnm with rfl | ⟨c, cs, rfl, hm⟩
    · have hstep : bulletsFuel (fuel + 1) true ([] ++ '\n' :: T) = bulletsFuel fuel true T := by
        simp [bulletsFuel, isMarker]
      rw [hstep]
      exact bulletsFuel_eq fuel true T (by simp at hlen; omega) (Nat.le_refl _)
    · have hc : c ≠ '\n' := fun hcc => hnl (hcc ▸ List.mem_cons_self c cs)
      have hstep : bulletsFuel (fuel + 1) true ((c :: cs) ++ '\n' :: T)
          = bulletsFuel fuel (decide (c = '\n')) (cs ++ '\n' :: T) := by
        simp [bulletsFuel, hm]
      rw [hstep, decide_eq_false hc]
      exact bulletsFuel_false_nl cs T fuel (by simp at hlen ⊢; omega)
        (fun hmem => hnl (List.mem_cons_of_mem c hmem))

theorem bulletsFuel_bullet_last {c : Char} {cs : List Char} {fuel : Nat}
    (hm : isMarker c = true)
    (hws : ¬ (cs.takeWhile isWsChar).isEmpty = true)
    (hct : ¬ (cs.dropWhile isWsChar).isEmpty = true)
    (hnl : '\n' ∉ cs)
    (hlen : (c :: cs).length ≤ fuel) :
    bulletsFuel fuel true (c :: cs) = [bulletTextOf (c :: cs)] := by
  cases fuel with
  | zero => exact absurd hlen (by simp)
  | succ fuel =>
    have hstep : bulletsFuel (fuel + 1) true (c :: cs)
        = (match tryBullet cs with
           | some (text, rem) => text :: bulletsFuel fuel false rem
           | none => bulletsFuel fuel (decide (c = '\n')) cs) := by
      simp [bulletsFuel, hm]
    rw [hstep, tryBullet_at_last hws hct hnl]
    have hhead : trimChars (cs.dropWhile isWsChar) = bulletTextOf (c :: cs) := by
      simp [bulletTextOf]
    have htail : bulletsFuel fuel false ([] : List Char) = [] := by
      cases fuel <;> rfl
    simp only [hhead, htail]

theorem bulletsFuel_other_last {l : List Char} {fuel : Nat}
    (hnm : l = [] ∨ ∃ c cs, l = c :: cs ∧ isMarker c = false)
    (hnl : '\n' ∉ l)
    (hlen : l.length ≤ fuel) :
    bulletsFuel fuel true l = [] := by
  rcases hnm with rfl | ⟨c, cs, rfl, hm⟩
  · cases fuel <;> rfl
  · cases fuel with
    | zero => exact absurd hlen (by simp)
    | succ fuel =>
      have hc : c ≠ '\n' := fun hcc => hnl (hcc ▸ List.mem_cons_self c cs)
      have hstep : bulletsFuel (fuel + 1) true (c :: cs)
          = bulletsFuel fuel (decide (c = '\n')) cs := by
        simp [bulletsFuel, hm]
      rw [hstep, decide_eq_false hc]
      exact bulletsFuel_false_nonl cs fuel (by simpa using hlen)
        (fun hmem => hnl (List.mem_cons_of_mem c hmem))

theorem goodLine_no_nl {l : List Char} (h : goodLine l = true) : '\n' ∉ l := by
  simp only [goodLine, Bool.and_eq_true, decide_eq_true_eq] at h
  exact h.1

theorem bulletsFuel_join : ∀ (lines : List (List Char)) (fuel : Nat),
    (joinNl lines).length ≤ fuel → (∀ l ∈ lines, goodLine l = true) →
    bulletsFuel fuel true (joinNl lines) = (lines.filter isBulletL).map bulletTextOf := by
  intro lines
  induction lines with
  | nil => intro fuel _ _; cases fuel <;> rfl
  | cons l rest ih =>
    intro fuel hlen hgood
    have hgl : goodLine l = true := hgood l (List.mem_cons_self _ _)
    have hnl : '\n' ∉ l := goodLine_no_nl hgl
    cases rest with
    | nil =>
      rw [show joinNl [l] = l from rfl] at hlen ⊢
      cases l with
      | nil =>
        have hz : bulletsFuel fuel true ([] : List Char) = [] := by cases fuel <;> rfl
        rw [hz]
        rfl
      | cons c cs =>
        cases hmk : isMarker c with
        | true =>
          have hcond : ¬ (cs.takeWhile isWsChar).isEmpty = true
              ∧ ¬ (cs.dropWhile isWsChar).isEmpty = true := by
            simp only [goodLine, hmk, if_true, Bool.and_eq_true, decide_eq_true_eq] at hgl
            exact hgl.2
          have hnl2 : '\n' ∉ cs := fun hmem => hnl (List.mem_cons_of_mem c hmem)
          rw [bulletsFuel_bullet_last hmk hcond.1 hcond.2 hnl2 hlen]
          have hbl : isBulletL (c :: cs) = true := by
            simp only [isBulletL, hmk]
            simp [hcond.1, hcond.2]
          simp [List.filter_cons, hbl]
        | false =>
          rw [bulletsFuel_other_last (Or.inr ⟨c, cs, rfl, hmk⟩) hnl hlen]
          have hbl : isBulletL (c :: cs) = false := by
            simp [isBulletL, hmk]
          simp [List.filter_cons, hbl]
    | cons l2 rest2 =>
      have hjoin : joinNl (l :: l2 :: rest2) = l ++ '\n' :: joinNl (l2 :: rest2) := rfl
      rw [hjoin] at hlen ⊢
      have hrest : ∀ l' ∈ l2 :: rest2, goodLine l' = true :=
        fun l' h' => hgood l' (List.mem_cons_of_mem _ h')
      have hihr := ih (joinNl (l2 :: rest2)).length (Nat.le_refl _) hrest
      cases l with
      | nil =>
        rw [bulletsFuel_other_line (Or.inl rfl) hnl hlen, hihr]
        rfl
      | cons c cs =>
        cases hmk : isMarker c with
        | true =>
          have hcond : ¬ (cs.takeWhile isWsChar).isEmpty = true
              ∧ ¬ (cs.dropWhile isWsChar).isEmpty = true := by
            simp only [goodLine, hmk, if_true, Bool.and_eq_true, decide_eq_true_eq] at hgl
            exact hgl.2
          have hnl2 : '\n' ∉ cs := fun hmem => hnl (List.mem_cons_of_mem c hmem)
          rw [bulletsFuel_bullet_line hmk hcond.1 hcond.2 hnl2 hlen, hihr]
          have hbl : isBulletL (c :: cs) = true := by
            simp only [isBulletL, hmk]
            simp [hcond.1, hcond.2]
          simp [List.filter_cons, hbl]
        | false =>
          rw [bulletsFuel_other_line (Or.inr ⟨c, cs, rfl, hmk⟩) hnl hlen, hihr]
          have hbl : isBulletL (c :: cs) = false := by
            simp [isBulletL, hmk]
          simp [List.filter_cons, hbl]

theorem bullets_join (lines : List (List Char))
    (hgood : ∀ l ∈ lines, goodLine l = true) :
    bullets (joinNl lines) = (lines.filter isBulletL).map bulletTextOf :=
  bulletsFuel_join lines _ (Nat.le_refl _) hgood

theorem isNlHashHash_cons_ne {c : Char} {t : List Char} (hc : c ≠ '\n') :
    isNlHashHash (c :: t) = false := by
  simp only [isNlHashHash]
  apply decide_eq_false
  intro habs
  rw [List.take_succ_cons] at habs
  exact hc (List.cons.injEq _ _ _ _ ▸ habs).1

theorem hasNlHashHash_no_nl : ∀ {l : List Char}, '\n' ∉ l → hasNlHashHash l = false := by
  intro l
  induction l with
  | nil => intro _; rfl
  | cons c t ih =>
    intro hnl
    have hc : c ≠ '\n' := fun hcc => hnl (hcc ▸ List.mem_cons_self c t)
    simp only [hasNlHashHash, Bool.or_eq_false_iff]
    exact ⟨isNlHashHash_cons_ne hc, ih (fun hm => hnl (List.mem_cons_of_mem c hm))⟩

theorem hasNlHashHash_append_nl : ∀ (l X : List Char), '\n' ∉ l →
    isNlHashHash ('\n' :: X) = false → hasNlHashHash X = false →
    hasNlHashHash (l ++ '\n' :: X) = false := by
  intro l
  induction l with
  | nil =>
    intro X _ h1 h2
    simp only [List.nil_append, hasNlHashHash, Bool.or_eq_false_iff]
    exact ⟨h1, h2⟩
  | cons c cs ih =>
    intro X hnl h1 h2
    have hc : c ≠ '\n' := fun hcc => hnl (hcc ▸ List.mem_cons_self c cs)
    simp only [List.cons_append, hasNlHashHash, Bool.or_eq_false_iff]
    refine ⟨?_, ih X (fun hm => hnl (List.mem_cons_of_mem c hm)) h1 h2⟩
    have := isNlHashHash_cons_ne (t := cs ++ '\n' :: X) hc
    simpa using this

theorem isNlHashHash_nl_join {l2 : List Char} (rest : List (List Char))
    (h2 : (['#', '#'].isPrefixOf l2) = false) :
    isNlHashHash ('\n' :: joinNl (l2 :: rest)) = false := by
  have hpref : ∀ (X : List Char), l2 = '#' :: '#' :: X → False := by
    intro X hX
    rw [hX] at h2
    simp [List.isPrefixOf] at h2
  cases rest with
  | nil =>
    rw [show joinNl [l2] = l2 from rfl]
    cases l2 with
    | nil => decide
    | cons a t =>
      cases t with
      | nil => simp [isNlHashHash, List.take_succ_cons]
      | cons b t2 =>
        simp only [isNlHashHash, List.take_succ_cons]
        apply decide_eq_false
        intro habs
        simp only [List.cons.injEq] at habs
        exact hpref t2 (by rw [habs.2.1, habs.2.2.1])
  | cons r rs =>
    rw [show joinNl (l2 :: r :: rs) = l2 ++ '\n' :: joinNl (r :: rs) from rfl]
    cases l2 with
    | nil =>
      simp only [List.nil_append, isNlHashHash, List.take_succ_cons]
      apply decide_eq_false
      intro habs
      simp only [List.cons.injEq] at habs
      exact absurd habs.2.1 (by decide)
    | cons a t =>
      cases t with
      | nil =>
        simp only [List.cons_append, List.nil_append, isNlHashHash, List.take_succ_cons]
        apply decide_eq_false
        intro habs
        simp only [List.cons.injEq] at habs
        exact absurd habs.2.2.1 (by decide)
      | cons b t2 =>
        simp only [List.cons_append, isNlHashHash, List.take_succ_cons]
        apply decide_eq_false
        intro habs
        simp only [List.cons.injEq] at habs
        exact hpref t2 (by rw [habs.2.1, habs.2.2.1])

theorem hasNlHashHash_join : ∀ (lines : List (List Char)),
    (∀ l ∈ lines, '\n' ∉ l ∧ (['#', '#'].isPrefixOf l) = false) →
    hasNlHashHash (joinNl lines) = false := by
  intro lines
  induction lines with
  | nil => intro _; rfl
  | cons l rest ih =>
    intro h
    have hl := h l (List.mem_cons_self _ _)
    cases rest with
    | nil =>
      rw [show joinNl [l] = l from rfl]
      exact hasNlHashHash_no_nl hl.1
    | cons l2 rest2 =>
      rw [show joinNl (l :: l2 :: rest2) = l ++ '\n' :: joinNl (l2 :: rest2) from rfl]
      refine hasNlHashHash_append_nl l _ hl.1 ?_ ?_
      · exact isNlHashHash_nl_join rest2 (h l2 (by simp)).2
      · exact ih (fun l' h' => h l' (List.mem_cons_of_mem _ h'))

theorem lazyCapture_boundary : ∀ (body rest : List Char), hasNlHashHash body = false →
    lazyCapture (body ++ '\n' :: '#' :: '#' :: rest) = some body := by
  intro body
  induction body with
  | nil =>
    intro rest _
    simp [lazyCapture, isNlHashHash]
  | cons c bs ih =>
    intro rest h
    simp only [hasNlHashHash, Bool.or_eq_false_iff] at h
    have hfull : isNlHashHash (c :: (bs ++ '\n' :: '#' :: '#' :: rest)) = false := by
      cases bs with
      | nil => simp [isNlHashHash, List.take_succ_cons]
      | cons d bs2 =>
        cases bs2 with
        | nil => simp [isNlHashHash, List.take_succ_cons]
        | cons e bs3 =>
          have hb : isNlHashHash (c :: d :: e :: bs3) = false := h.1
          simp only [isNlHashHash, List.take_succ_cons] at hb ⊢
          simpa using hb
    have hne : ¬ (c = '\n' ∧ bs ++ '\n' :: '#' :: '#' :: rest = []) := by
      rintro ⟨_, habs⟩
      exact absurd habs (by simp)
    rw [show (c :: bs) ++ '\n' :: '#' :: '#' :: rest
        = c :: (bs ++ '\n' :: '#' :: '#' :: rest) from rfl]
    simp only [lazyCapture, hfull, Bool.false_eq_true, if_false]
    rw [if_neg hne, ih rest h.2]
    rfl

theorem parseReadmeCore_features (r : List Char) :
    (parseReadmeCore r).features
      = (match scanSection featAlts r with
         | some cap => (bullets cap).take 6
         | none => []) := rfl

theorem scanSection_featHead {X cap : List Char} (h : lazyCapture X = some cap) :
    scanSection featAlts (("## Features\n").data ++ X) = some cap := by
  have step1 : tryPosn featAlts (("## Features\n").data ++ X)
      = (match lazyCapture X with
         | some cap => some cap
         | none =>
           (match matchHeadingAt featAlts (("## Features\n").data ++ X) 1 with
            | some r1 => lazyCapture r1
            | none => none)) := rfl
  have step2 : scanSection featAlts (("## Features\n").data ++ X)
      = (match tryPosn featAlts (("## Features\n").data ++ X) with
         | some cap => some cap
         | none => scanSection featAlts (("# Features\n").data ++ X)) := rfl
  rw [step2, step1, h]

/-- C4 counterexample: a features section followed by a single-hash
heading with a later bullet.  The claim collects bullets only up to the
next heading, predicting one bullet, but the lazy capture of the code
only stops at a newline followed by two hashes (or a final newline), so
the bullet after the single-hash heading is also collected. -/
theorem parseReadme_features_c4_cex :
    claimFeatures (("## Features\n- a\n# Other\n- x\n").data) = [['a']]
    ∧ (parseReadmeCore (("## Features\n- a\n# Other\n- x\n").data)).features = [['a'], ['x']]
    ∧ (parseReadmeCore (("## Features\n- a\n# Other\n- x\n").data)).features
      ≠ claimFeatures (("## Features\n- a\n# Other\n- x\n").data) := by
  refine ⟨by decide, by decide, by decide⟩

/-- C4 (amended): the features list always has at most 6 entries; for a
README made of a two-hash Features heading, well-formed section lines
none of which starts with two hashes, and a terminating newline followed
by a two-hash heading, the features are the first 6 bullet lines of the
section in original order (a single-hash line does not stop the
collection); the 8-bullet example of the specification yields the first
6 bullets; and a README without a matched heading yields the empty list,
never an error. -/
theorem parseReadme_features_c4 :
    (∀ r : List Char, (parseReadmeCore r).features.length ≤ 6)
    ∧ (∀ (lines : List (List Char)) (rest : List Char),
        (∀ l ∈ lines, goodLine l = true ∧ (['#', '#'].isPrefixOf l) = false) →
        (parseReadmeCore
            (("## Features\n").data ++ (joinNl lines ++ '\n' :: '#' :: '#' :: rest))).features
          = ((lines.filter isBulletL).map bulletTextOf).take 6)
    ∧ (parseReadmeCore
        (("## Features\n- a1\n- a2\n- a3\n- a4\n- a5\n- a6\n- a7\n- a8\n\n## Next\ntext\n").data)).features
      = [("a1").data, ("a2").data, ("a3").data, ("a4").data, ("a5").data, ("a6").data]
    ∧ (parseReadmeCore (("just text, no headings\n").data)).features = [] := by
  refine ⟨?_, ?_, by decide, by decide⟩
  · intro r
    rw [parseReadmeCore_features r]
    cases hs : scanSection featAlts r with
    | some cap =>
      simpa using List.length_take_le 6 (bullets cap)
    | none => simp
  · intro lines rest hl
    have hgood : ∀ l ∈ lines, goodLine l = true := fun l h => (hl l h).1
    have hnn : hasNlHashHash (joinNl lines) = false :=
      hasNlHashHash_join lines (fun l h => ⟨goodLine_no_nl (hl l h).1, (hl l h).2⟩)
    have hlc := lazyCapture_boundary (joinNl lines) rest hnn
    have hscan := scanSection_featHead hlc
    rw [parseReadmeCore_features, hscan]
    exact congrArg (List.take 6) (bullets_join lines hgood)

/-- C4 witness: the sectioning part of the amended theorem at a concrete
well-formed section containing a single-hash line between two bullets. -/
theorem parseReadme_features_c4_witness :
    (parseReadmeCore
        (("## Features\n").data
          ++ (joinNl [("- alpha").data, ("# mid").data, ("- beta").data]
              ++ '\n' :: '#' :: '#' :: (" End\n").data))).features
      = ((([("- alpha").data, ("# mid").data, ("- beta").data].filter isBulletL).map
          bulletTextOf).take 6) :=
  parseReadme_features_c4.2.1 [("- alpha").data, ("# mid").data, ("- beta").data]
    ((" End\n").data) (by decide)

end Portfolio
